import Mathlib

/-!
# Explicit Euler scheme of `ql/FiniteDifferences/expliciteuler.hpp`

`ExplicitEuler<Operator>` is a class template.  The operations it requires of
its template argument are collected in `OperatorOps`; the scheme itself is the
record `ExplicitEuler` with the four data members of the class, and the
constructor, `setStep` and `step` are functions on that record.

* `Time` (a `double` in the source) is an arbitrary type `R` with a zero, so
  nothing below depends on rounding.
* `Operator::arrayType` is an arbitrary type `Arr` for the scheme; the claims
  that speak about the entries or the length of a state vector take
  `Arr = List R`.
* The operations that the operator contract allows to fail (`setTime`, the
  scalar product, the difference and `applyTo`) return `Except ε`; a failure
  of one of them leaves the calling member function at once, as a C++
  exception does.

The stepping driver that runs the scheme and the calibration helper of
`ql/ShortRateModels/calibrationhelper.hpp` follow the scheme.
-/

namespace QuantLib

namespace FiniteDifferences

/-- The interface `ExplicitEuler` requires of its `Operator` template
argument (the list in the class comment of `expliciteuler.hpp`), together
with `isTimeDependent`, which `step` calls, and the default constructor,
which initialises the member `explicitPart_`. -/
structure OperatorOps (Op Arr R ε : Type) where
  /-- Member `size_t size()`. -/
  size : Op → Nat
  /-- Member `bool isTimeDependent()`. -/
  isTimeDependent : Op → Bool
  /-- Member `void setTime(Time t)`: the operator after the call. -/
  setTime : R → Op → Except ε Op
  /-- Member `arrayType applyTo(const arrayType&)`. -/
  applyTo : Op → Arr → Except ε Arr
  /-- Static member `Operator identity(size_t size)`. -/
  identity : Nat → Op
  /-- Product `Operator operator*(double, const Operator&)`. -/
  smul : R → Op → Except ε Op
  /-- Difference `Operator operator-(const Operator&, const Operator&)`. -/
  sub : Op → Op → Except ε Op
  /-- Default constructor `Operator()`: the default-constructed operator. -/
  dflt : Op

/-- The data members of `ExplicitEuler<Operator>`. -/
structure ExplicitEuler (Op R : Type) where
  L_ : Op
  I_ : Op
  explicitPart_ : Op
  dt_ : R
  deriving DecidableEq, Repr

namespace ExplicitEuler

variable {Op Arr R ε : Type}

/-- The value of the expression `I_-dt_*L_` in a scheme state. -/
def explicitExpr (ops : OperatorOps Op Arr R ε) (s : ExplicitEuler Op R) : Except ε Op := do
  let m ← ops.smul s.dt_ s.L_
  ops.sub s.I_ m

/-- Constructor
`ExplicitEuler(const Operator& L) : L_(L), I_(Operator::identity(L.size())), dt_(0.0) {}`;
`explicitPart_` is not in the initialiser list and is default-constructed. -/
def new [Zero R] (ops : OperatorOps Op Arr R ε) (L : Op) : ExplicitEuler Op R :=
  { L_ := L, I_ := ops.identity (ops.size L), explicitPart_ := ops.dflt, dt_ := 0 }

/-- Member `void setStep(Time dt) { dt_ = dt; explicitPart_ = I_-dt_*L_; }`. -/
def setStep (ops : OperatorOps Op Arr R ε) (dt : R) (s : ExplicitEuler Op R) :
    Except ε (ExplicitEuler Op R) := do
  let s1 : ExplicitEuler Op R := { s with dt_ := dt }
  let e ← explicitExpr ops s1
  pure { s1 with explicitPart_ := e }

/-- The conditional block at the start of `step`:
`if (L_.isTimeDependent()) { L_.setTime(t); explicitPart_ = I_-dt_*L_; }`.
Its result is the scheme state at the moment `explicitPart_` is applied. -/
def stepUpdate (ops : OperatorOps Op Arr R ε) (t : R) (s : ExplicitEuler Op R) :
    Except ε (ExplicitEuler Op R) :=
  if ops.isTimeDependent s.L_ then do
    let L1 ← ops.setTime t s.L_
    let s1 : ExplicitEuler Op R := { s with L_ := L1 }
    let e ← explicitExpr ops s1
    pure { s1 with explicitPart_ := e }
  else
    pure s

/-- Member `ExplicitEuler<Operator>::step(arrayType& a, Time t)`: the conditional
block, then `a = explicitPart_.applyTo(a)`.  Returns the scheme state and the
new contents of `a`. -/
def step (ops : OperatorOps Op Arr R ε) (a : Arr) (t : R) (s : ExplicitEuler Op R) :
    Except ε (ExplicitEuler Op R × Arr) := do
  let s1 ← stepUpdate ops t s
  let a1 ← ops.applyTo s1.explicitPart_ a
  pure (s1, a1)

/-- The member calls a client of the scheme can make. -/
inductive Call (Arr R : Type) where
  | setStep (dt : R)
  | step (a : Arr) (t : R)

/-- Runs a sequence of member calls on a scheme; each `step` call acts on the
array it is handed, and only the scheme state is threaded through. -/
def runCalls (ops : OperatorOps Op Arr R ε) :
    ExplicitEuler Op R → List (Call Arr R) → Except ε (ExplicitEuler Op R)
  | s, [] => pure s
  | s, Call.setStep dt :: cs => do
      let s1 ← setStep ops dt s
      runCalls ops s1 cs
  | s, Call.step a t :: cs => do
      let r ← step ops a t s
      runCalls ops r.1 cs

/-- Calls `step` once for each time of `ts`, in order, feeding every call the
array the previous one produced. -/
def steps (ops : OperatorOps Op Arr R ε) :
    ExplicitEuler Op R → Arr → List R → Except ε (ExplicitEuler Op R × Arr)
  | s, a, [] => pure (s, a)
  | s, a, t :: ts => do
      let r ← step ops a t s
      steps ops r.1 r.2 ts

end ExplicitEuler

/-! ## State vectors as lists -/

/-- Entrywise difference of two state vectors. -/
def vsub {R : Type} [Sub R] (v w : List R) : List R := List.zipWith (fun x y => x - y) v w

/-- A state vector multiplied by a scalar. -/
def vsmul {R : Type} [Mul R] (c : R) (v : List R) : List R := v.map (fun x => c * x)

/-! ## A synthetic operator

A diagonal operator with integer entries whose coefficients are a known
function of time: at time `t` the diagonal of a time-dependent operator is
`t * rate`.  It is used to evaluate the scheme on concrete inputs. -/

/-- Diagonal operator: the current diagonal, the rate of change of the
diagonal with time, and the time-dependence flag. -/
structure DiagOp where
  coeff : List Int
  rate : List Int
  timeDependent : Bool
  deriving DecidableEq, Repr

namespace DiagOp

/-- Sets the diagonal to its value at time `t`, entry `i` becoming `t` times
the rate of entry `i` (a missing rate counts as zero, so the size is kept);
ignored by a time-constant operator. -/
def setTime (t : Int) (o : DiagOp) : DiagOp :=
  if o.timeDependent then
    { o with coeff := (List.range o.coeff.length).map (fun i => t * o.rate.getD i 0) }
  else o

/-- Diagonal times vector; fails on a vector of the wrong length. -/
def applyTo (o : DiagOp) (v : List Int) : Except String (List Int) :=
  if v.length = o.coeff.length then pure (List.zipWith (fun c x => c * x) o.coeff v)
  else throw "applyTo: size mismatch"

/-- The identity of size `n`. -/
def identity (n : Nat) : DiagOp :=
  { coeff := List.replicate n 1, rate := List.replicate n 0, timeDependent := false }

/-- Scalar times operator. -/
def smul (c : Int) (o : DiagOp) : DiagOp :=
  { o with coeff := o.coeff.map (fun x => c * x), rate := o.rate.map (fun x => c * x) }

/-- Difference of two operators; fails on mismatched sizes. -/
def sub (a b : DiagOp) : Except String DiagOp :=
  if a.coeff.length = b.coeff.length then
    pure { coeff := List.zipWith (fun x y => x - y) a.coeff b.coeff,
           rate := List.zipWith (fun x y => x - y) a.rate b.rate,
           timeDependent := a.timeDependent || b.timeDependent }
  else throw "operator-: size mismatch"

/-- The synthetic operator as an instance of the operator interface. -/
def ops : OperatorOps DiagOp (List Int) Int String where
  size o := o.coeff.length
  isTimeDependent o := o.timeDependent
  setTime t o := pure (setTime t o)
  applyTo := applyTo
  identity := identity
  smul c o := pure (smul c o)
  sub := sub
  dflt := { coeff := [], rate := [], timeDependent := false }

end DiagOp

/-! ## The operator contract on state vectors -/

section Contract

variable {Op R ε : Type}

/-- Contract law `identity(N).applyTo(v) = v` for every state vector `v` of
length `N`. -/
def IdentityLaw (ops : OperatorOps Op (List R) R ε) : Prop :=
  ∀ (n : Nat) (v : List R), v.length = n → ops.applyTo (ops.identity n) v = .ok v

/-- Contract law `(I - dt*L).applyTo(v) = I.applyTo(v) - dt*L.applyTo(v)`:
whenever the product, the difference and the two applications on the right
return, the application on the left returns their combination. -/
def ExplicitLaw [Sub R] [Mul R] (ops : OperatorOps Op (List R) R ε) : Prop :=
  ∀ (I L m e : Op) (dt : R) (v Iv Lv : List R),
    ops.smul dt L = .ok m → ops.sub I m = .ok e →
    ops.applyTo I v = .ok Iv → ops.applyTo L v = .ok Lv →
    ops.applyTo e v = .ok (vsub Iv (vsmul dt Lv))

end Contract

/-- The scheme invariant: `explicitPart_` is the value of `I_-dt_*L_` for the
scheme's current `dt_` and the current time setting of `L_`. -/
def ExplicitPartValid {Op Arr R ε : Type} (ops : OperatorOps Op Arr R ε)
    (s : ExplicitEuler Op R) : Prop :=
  ExplicitEuler.explicitExpr ops s = .ok s.explicitPart_

/-! ## The stepping driver

`expliciteuler.hpp` includes `finitedifferencemodel.hpp` and befriends
`FiniteDifferenceModel<ExplicitEuler<Operator> >`, but the driver itself is
not among the sources.  The definitions of this section follow section 4.3 of
the specification. -/

/-- Modelled from the spec: the two member functions of a scheme that the
driver `FiniteDifferenceModel` (absent from the sources) calls, `setStep` and
`step`, for a scheme with state `S`. -/
structure SchemeOps (S Arr R ε : Type) where
  /-- Member `setStep(dt)`: the scheme after the call. -/
  setStep : R → S → Except ε S
  /-- Member `step(state, t)`: the scheme and the state vector after the call. -/
  step : Arr → R → S → Except ε (S × Arr)

/-- The explicit Euler scheme as a scheme the driver can run. -/
def ExplicitEuler.scheme {Op Arr R ε : Type} (ops : OperatorOps Op Arr R ε) :
    SchemeOps (ExplicitEuler Op R) Arr R ε where
  setStep := ExplicitEuler.setStep ops
  step := ExplicitEuler.step ops

/-- Modelled from the spec: the time grid handed to the driver's `rollback`
(absent from the sources): an ordered sequence of time points, some of which
are designated stopping times. -/
structure TimeGrid (R : Type) where
  times : List R
  stoppingTimes : List R

/-- Modelled from the spec: what a test double observing the driver
(absent from the sources) records: a `setStep(dt)` call on the scheme, a
`step(state, t)` call on the scheme, or the call `applyTo(state, t)` on the
step condition registered in position `i`. -/
inductive Event (R : Type) where
  | setStep (dt : R)
  | step (t : R)
  | condition (i : Nat) (t : R)
  deriving DecidableEq, Repr

/-- Modelled from the spec: why a `rollback` of the driver (absent from the
sources) is aborted: the precondition violation of an empty time grid, or
the failure reported by a scheme call or by a step condition. -/
inductive Failure (ε : Type) where
  | emptyGrid
  | call (e : ε)
  deriving DecidableEq, Repr

/-- Modelled from the spec: a failure of a scheme call or of a step condition
is propagated by the driver (absent from the sources) to its caller. -/
def liftCall {ε α : Type} : Except ε α → Except (Failure ε) α
  | .ok a => .ok a
  | .error e => .error (Failure.call e)

/-- Modelled from the spec: the session of the driver (absent from the
sources) while stepping: the scheme, the caller's state vector, the step size
last handed to the scheme in this rollback (none yet at the start), and the
calls made so far. -/
structure Session (S Arr R : Type) where
  scheme : S
  state : Arr
  dt : Option R
  trace : List (Event R)

section Driver

variable {S Arr R ε : Type}

/-- Modelled from the spec: item (4) of a sub-interval of the driver's
`rollback` (absent from the sources): every registered step condition's
`applyTo(state, t)` is invoked in registration order, each on the state the
previous one left; `i` is the registration position of the first condition
of the list. -/
def applyConditions (t : R) :
    List (Arr → R → Except ε Arr) → Nat → Arr → Except (Failure ε) (Arr × List (Event R))
  | [], _, a => pure (a, [])
  | c :: cs, i, a => do
      let a1 ← liftCall (c a t)
      let r ← applyConditions t cs (i + 1) a1
      pure (r.1, Event.condition i t :: r.2)

variable [LinearOrderedRing R]

/-- Modelled from the spec: whether a time point lies between the `from_time`
and the `to_time` of the driver's `rollback` (absent from the sources), in
either direction. -/
def between (fromTime toTime t : R) : Bool :=
  decide (min fromTime toTime ≤ t ∧ t ≤ max fromTime toTime)

/-- Modelled from the spec: the points of the time grid that the driver's
`rollback` (absent from the sources) traverses, in the order of the grid (the
grid is ordered in the direction of integration): the stretch of the grid
that lies between `from_time` and `to_time`. -/
def segment (fromTime toTime : R) (times : List R) : List R :=
  (times.dropWhile (fun t => !between fromTime toTime t)).takeWhile
    (fun t => between fromTime toTime t)

/-- Modelled from the spec: item (2) of a sub-interval of the driver's
`rollback` (absent from the sources): the scheme's `setStep(h)` is called if
`h` is not the step size last handed to the scheme.  Returns the scheme and
the calls made. -/
def handStep (sch : SchemeOps S Arr R ε) (h : R) (d : Session S Arr R) :
    Except (Failure ε) (S × List (Event R)) :=
  if d.dt = some h then pure (d.scheme, [])
  else do
    let s ← liftCall (sch.setStep h d.scheme)
    pure (s, [Event.setStep h])

/-- Modelled from the spec: item (4) of a sub-interval of the driver's
`rollback` (absent from the sources): if the end `t` of the sub-interval
coincides with a designated stopping time, every registered step condition is
applied at `t`.  Returns the state vector and the calls made. -/
def atStoppingTime (conds : List (Arr → R → Except ε Arr)) (stops : List R) (t : R)
    (a : Arr) : Except (Failure ε) (Arr × List (Event R)) :=
  if t ∈ stops then applyConditions t conds 0 a else pure (a, [])

/-- Modelled from the spec: what the driver's `rollback` (absent from the
sources) does for one sub-interval `[tk, tk1]`: (1) the step size becomes the
size of the sub-interval, (2) `setStep` is called on the scheme if that size
is not the one last handed to it, (3) the scheme's `step(state, tk)` is
called, (4) if `tk1` is a designated stopping time the step conditions are
applied at `tk1`. -/
def subInterval (sch : SchemeOps S Arr R ε) (conds : List (Arr → R → Except ε Arr))
    (stops : List R) (d : Session S Arr R) (tk tk1 : R) :
    Except (Failure ε) (Session S Arr R) := do
  let h := |tk1 - tk|
  let s1 ← handStep sch h d
  let r ← liftCall (sch.step d.state tk s1.1)
  let c ← atStoppingTime conds stops tk1 r.2
  pure { scheme := r.1, state := c.1, dt := some h,
         trace := d.trace ++ s1.2 ++ Event.step tk :: c.2 }

/-- Modelled from the spec: the driver (absent from the sources) handles the
sub-intervals of the traversed points strictly one after the other, each
starting from the session the previous one left. -/
def traverse (sch : SchemeOps S Arr R ε) (conds : List (Arr → R → Except ε Arr))
    (stops : List R) : Session S Arr R → List R → Except (Failure ε) (Session S Arr R)
  | d, t0 :: t1 :: rest => do
      let d1 ← subInterval sch conds stops d t0 t1
      traverse sch conds stops d1 (t1 :: rest)
  | d, _ => pure d

/-- Modelled from the spec: `rollback(state, from_time, to_time, time_grid,
conditions)` of the driver `FiniteDifferenceModel` (absent from the sources):
an empty time grid is rejected; otherwise the state is advanced across the
sub-intervals of the grid between `from_time` and `to_time`.  The result is
the session at `to_time`; a failure aborts the rollback. -/
def rollback (sch : SchemeOps S Arr R ε) (scheme : S) (state : Arr) (fromTime toTime : R)
    (grid : TimeGrid R) (conds : List (Arr → R → Except ε Arr)) :
    Except (Failure ε) (Session S Arr R) :=
  if grid.times = [] then throw Failure.emptyGrid
  else traverse sch conds grid.stoppingTimes
    { scheme := scheme, state := state, dt := none, trace := [] }
    (segment fromTime toTime grid.times)

/-- The consecutive sub-intervals `[t_k, t_{k+1}]` of a sequence of time
points. -/
def subIntervals : List R → List (R × R)
  | t0 :: t1 :: rest => (t0, t1) :: subIntervals (t1 :: rest)
  | _ => []

/-- Replays a record of calls: for every `step` call, the step size last
handed to the scheme through `setStep` (starting from `d`) and the time the
step was called with. -/
def stepCalls : Option R → List (Event R) → List (Option R × R)
  | _, [] => []
  | _, Event.setStep h :: es => stepCalls (some h) es
  | d, Event.step t :: es => (d, t) :: stepCalls d es
  | d, Event.condition _ _ :: es => stepCalls d es

/-- The calls of the conditions registered in positions `i`, ..., `i + n - 1`
at time `t`, in registration order. -/
def conditionEvents (t : R) : Nat → Nat → List (Event R)
  | 0, _ => []
  | n + 1, i => Event.condition i t :: conditionEvents t n (i + 1)

/-- The record of calls of a traversal that is not aborted, as a function of
the traversed points alone: `d` is the step size last handed to the scheme
and `n` the number of registered conditions. -/
def schedule (stops : List R) (n : Nat) : Option R → List R → List (Event R)
  | d, t0 :: t1 :: rest =>
      (if d = some |t1 - t0| then [] else [Event.setStep |t1 - t0|]) ++
        Event.step t0 :: ((if t1 ∈ stops then conditionEvents t1 n 0 else []) ++
          schedule stops n (some |t1 - t0|) (t1 :: rest))
  | _, _ => []

end Driver

/-! ## Two synthetic step conditions -/

/-- A step condition in the manner of an early-exercise projection: every
entry below zero is raised to zero. -/
def projectNonNegative : List Int → Int → Except String (List Int) :=
  fun a _ => pure (a.map (fun x => max x 0))

/-- A step condition that depends on the time it is applied at: every entry
is capped at `t`. -/
def capAtTime : List Int → Int → Except String (List Int) :=
  fun a t => pure (a.map (fun x => min x t))

/-! ## Linear combinations of state vectors -/

/-- Entrywise sum of two state vectors. -/
def vadd {R : Type} [Add R] (v w : List R) : List R := List.zipWith (fun x y => x + y) v w

/-- Linearity of `applyTo`: whenever an operator applies to `a` and to `b`,
it applies to `x*a + y*b` and returns the same combination of the results. -/
def LinearLaw {Op R ε : Type} [Add R] [Mul R] (ops : OperatorOps Op (List R) R ε) : Prop :=
  ∀ (o : Op) (x y : R) (a b ra rb : List R),
    ops.applyTo o a = .ok ra → ops.applyTo o b = .ok rb →
    ops.applyTo o (vadd (vsmul x a) (vsmul y b)) = .ok (vadd (vsmul x ra) (vsmul y rb))

end FiniteDifferences

/-! ## Calibration helper of `ql/ShortRateModels/calibrationhelper.hpp`

`Quote`, `YieldTermStructure`, `BlackModel`, `PricingEngine`, `Observer` and
`Observable` are declared in headers that are not among the sources.  The
handles and pointers the helper holds are values of arbitrary types, and what
the helper calls on them is collected in `CalibrationHelper.Env`. -/

/-- The data members of `CalibrationHelper`, and the observers registered
with its `Observable` base, in registration order. -/
structure CalibrationHelper (Q Y B P O R : Type) where
  marketValue_ : R
  volatility_ : Q
  termStructure_ : Y
  blackModel_ : B
  engine_ : Option P
  calibrateVolatility_ : Bool
  observers_ : List O
  deriving DecidableEq, Repr

namespace CalibrationHelper

variable {Q Y B P O R N ε : Type}

/-- What `update` calls and `calibrationhelper.hpp` only declares or inherits:
`volatility_->value()`, the current value of the volatility quote; the pure
virtual `blackPrice(volatility) const` of the helper; and the `update()` of
an observer, called while the helper is in a given state, with its effect
recorded as a value of type `N`. -/
structure Env (Q Y B P O R N ε : Type) where
  /-- Member `Quote::value()`, through the handle. -/
  value : Q → Except ε R
  /-- Member `virtual Real blackPrice(Volatility volatility) const = 0`. -/
  blackPrice : CalibrationHelper Q Y B P O R → R → Except ε R
  /-- Member `Observer::update()` of a registered observer. -/
  notify : O → CalibrationHelper Q Y B P O R → N

/-- Member `Real marketValue() const { return marketValue_; }`: the value
returned and the helper after the call. -/
def marketValue (h : CalibrationHelper Q Y B P O R) : R × CalibrationHelper Q Y B P O R :=
  (h.marketValue_, h)

/-- Inherited member `Observable::notifyObservers()`: every registered
observer is notified, in registration order, while the helper is in state
`h`. -/
def notifyObservers (env : Env Q Y B P O R N ε) (h : CalibrationHelper Q Y B P O R) :
    List N :=
  h.observers_.map (fun o => env.notify o h)

/-- Member
`void update() { marketValue_ = blackPrice(volatility_->value()); notifyObservers(); }`:
the helper after the call and the notifications made. -/
def update (env : Env Q Y B P O R N ε) (h : CalibrationHelper Q Y B P O R) :
    Except ε (CalibrationHelper Q Y B P O R × List N) := do
  let v ← env.value h.volatility_
  let p ← env.blackPrice h v
  let h1 : CalibrationHelper Q Y B P O R := { h with marketValue_ := p }
  pure (h1, notifyObservers env h1)

/-- A synthetic environment over the integers: a quote handle is the value of
its quote, the Black price of a volatility `v` is `2 * v + 1`, and observer
`o`, when notified, records its name and what `marketValue()` returns. -/
def sampleEnv : Env Int Unit Unit Unit Nat Int (Nat × Int) String where
  value q := pure q
  blackPrice _ v := pure (2 * v + 1)
  notify o h := (o, (marketValue h).1)

end CalibrationHelper

namespace FiniteDifferences

/-! # Theorems -/

/-! ## Reading off successful runs -/

theorem except_bind_eq_ok {ε α β : Type} (x : Except ε α) (f : α → Except ε β) (b : β) :
    (x >>= f) = .ok b ↔ ∃ a, x = .ok a ∧ f a = .ok b := by
  cases x <;> simp [bind, Except.bind]

theorem except_pure_eq_ok {ε α : Type} (a b : α) :
    (pure a : Except ε α) = .ok b ↔ a = b := by
  simp [pure, Except.pure]

namespace ExplicitEuler

variable {Op Arr R ε : Type}

theorem explicitExpr_eq_ok (ops : OperatorOps Op Arr R ε) (s : ExplicitEuler Op R) (e : Op) :
    explicitExpr ops s = .ok e ↔ ∃ m, ops.smul s.dt_ s.L_ = .ok m ∧ ops.sub s.I_ m = .ok e := by
  simp only [explicitExpr, except_bind_eq_ok]

theorem setStep_eq_ok (ops : OperatorOps Op Arr R ε) (dt : R) (s s' : ExplicitEuler Op R) :
    setStep ops dt s = .ok s' ↔
      ∃ e, explicitExpr ops { s with dt_ := dt } = .ok e ∧
        s' = { L_ := s.L_, I_ := s.I_, explicitPart_ := e, dt_ := dt } := by
  simp only [setStep, except_bind_eq_ok, except_pure_eq_ok]
  constructor
  · rintro ⟨e, h, rfl⟩; exact ⟨e, h, rfl⟩
  · rintro ⟨e, h, rfl⟩; exact ⟨e, h, rfl⟩

theorem stepUpdate_eq_ok (ops : OperatorOps Op Arr R ε) (t : R) (s s' : ExplicitEuler Op R) :
    stepUpdate ops t s = .ok s' ↔
      (ops.isTimeDependent s.L_ = false ∧ s' = s) ∨
      (ops.isTimeDependent s.L_ = true ∧ ∃ L1 e, ops.setTime t s.L_ = .ok L1 ∧
        explicitExpr ops { s with L_ := L1 } = .ok e ∧
        s' = { L_ := L1, I_ := s.I_, explicitPart_ := e, dt_ := s.dt_ }) := by
  unfold stepUpdate
  cases htd : ops.isTimeDependent s.L_
  · simp only [Bool.false_eq_true, if_false, except_pure_eq_ok, true_and, false_and, or_false]
    exact eq_comm
  · simp only [if_true, except_bind_eq_ok, except_pure_eq_ok, true_and, Bool.true_eq_false,
      false_and, false_or]
    constructor
    · rintro ⟨L1, h1, e, h2, rfl⟩; exact ⟨L1, e, h1, h2, rfl⟩
    · rintro ⟨L1, e, h1, h2, rfl⟩; exact ⟨L1, h1, e, h2, rfl⟩

theorem step_eq_ok (ops : OperatorOps Op Arr R ε) (a a' : Arr) (t : R) (s s' : ExplicitEuler Op R) :
    step ops a t s = .ok (s', a') ↔
      stepUpdate ops t s = .ok s' ∧ ops.applyTo s'.explicitPart_ a = .ok a' := by
  simp only [step, except_bind_eq_ok, except_pure_eq_ok, Prod.mk.injEq]
  constructor
  · rintro ⟨s1, h1, a1, h2, rfl, rfl⟩; exact ⟨h1, h2⟩
  · rintro ⟨h1, h2⟩; exact ⟨s', h1, a', h2, rfl, rfl⟩

end ExplicitEuler

/-! ## The synthetic operator satisfies the contract laws -/

theorem zipWith_replicate_one_mul (v : List Int) :
    List.zipWith (fun c x => c * x) (List.replicate v.length 1) v = v := by
  induction v with
  | nil => rfl
  | cons x xs ih => simp [List.replicate_succ, ih]

theorem zipWith_explicit (i l v : List Int) (dt : Int) :
    List.zipWith (fun c x => c * x)
        (List.zipWith (fun x y => x - y) i (l.map (fun x => dt * x))) v =
      vsub (List.zipWith (fun c x => c * x) i v)
        (vsmul dt (List.zipWith (fun c x => c * x) l v)) := by
  induction i generalizing l v with
  | nil => simp [vsub]
  | cons a i ih =>
    cases l with
    | nil => simp [vsub, vsmul]
    | cons b l =>
      cases v with
      | nil => simp [vsub, vsmul]
      | cons x v =>
        have h := ih l v
        simp only [vsub, vsmul] at h
        simp only [vsub, vsmul, List.map_cons, List.zipWith_cons_cons, h, List.cons.injEq,
          and_true]
        ring

theorem DiagOp.identityLaw : IdentityLaw DiagOp.ops := by
  intro n v hv
  subst hv
  simp [DiagOp.ops, DiagOp.applyTo, DiagOp.identity, zipWith_replicate_one_mul, pure,
    Except.pure]

theorem DiagOp.explicitLaw : ExplicitLaw DiagOp.ops := by
  intro I L m e dt v Iv Lv hm he hI hL
  simp only [DiagOp.ops, pure, Except.pure, Except.ok.injEq] at hm
  subst hm
  simp only [DiagOp.ops, DiagOp.sub, DiagOp.smul, List.length_map] at he
  simp only [DiagOp.ops, DiagOp.applyTo] at hI hL ⊢
  split at he
  · simp only [pure, Except.pure, Except.ok.injEq] at he
    subst he
    split at hI
    · split at hL
      · simp only [pure, Except.pure, Except.ok.injEq] at hI hL
        subst hI hL
        rename_i h1 h2 h3
        simp only [List.length_zipWith, List.length_map, h1, h3, h2.symm, min_self, if_true,
          pure, Except.pure, zipWith_explicit]
      · cases hL
    · cases hI
  · cases he

namespace ExplicitEuler

variable {Op Arr R ε : Type}

/-- C1 (single-step correctness).  Let `L` be a time-independent operator
whose interface satisfies the two contract laws `identity(N).applyTo(v) = v`
and `(I - dt*L).applyTo(v) = I.applyTo(v) - dt*L.applyTo(v)`, let `a` have
length `L.size()`, and let the operator algebra return `dt*L`, `I - dt*L` and
`L.applyTo(a)`.  Then `setStep(dt)` on the freshly constructed scheme returns,
and the following `step(a, t)` returns and overwrites `a` with exactly
`a - dt*L.applyTo(a)`. -/
theorem step_single_correct [Zero R] [Sub R] [Mul R] (ops : OperatorOps Op (List R) R ε)
    (L m e : Op) (dt t : R) (a La : List R)
    (hid : IdentityLaw ops) (hex : ExplicitLaw ops)
    (hti : ops.isTimeDependent L = false)
    (hlen : a.length = ops.size L)
    (hm : ops.smul dt L = .ok m)
    (he : ops.sub (ops.identity (ops.size L)) m = .ok e)
    (hLa : ops.applyTo L a = .ok La) :
    ∃ s1 s2, setStep ops dt (new ops L) = .ok s1 ∧
      step ops a t s1 = .ok (s2, vsub a (vsmul dt La)) := by
  refine ⟨{ L_ := L, I_ := ops.identity (ops.size L), explicitPart_ := e, dt_ := dt },
    { L_ := L, I_ := ops.identity (ops.size L), explicitPart_ := e, dt_ := dt }, ?_, ?_⟩
  · rw [setStep_eq_ok]
    exact ⟨e, (explicitExpr_eq_ok ops _ e).2 ⟨m, hm, he⟩, rfl⟩
  · rw [step_eq_ok]
    refine ⟨(stepUpdate_eq_ok ops t _ _).2 (Or.inl ⟨hti, rfl⟩), ?_⟩
    exact hex _ L m e dt a a La hm he (hid _ a hlen) hLa

/-- Witness for C1 on the synthetic diagonal operator `diag(2, 5)`, with
`dt = 3` and `a = [1, 1]`: the step yields `[1 - 3*2, 1 - 3*5]`. -/
theorem step_single_correct_witness :
    ∃ s1 s2, setStep DiagOp.ops 3 (new DiagOp.ops ⟨[2, 5], [0, 0], false⟩) = .ok s1 ∧
      step DiagOp.ops [1, 1] 7 s1 = .ok (s2, vsub [1, 1] (vsmul 3 [2, 5])) :=
  step_single_correct DiagOp.ops ⟨[2, 5], [0, 0], false⟩ ⟨[6, 15], [0, 0], false⟩
    ⟨[-5, -14], [0, 0], false⟩ 3 7 [1, 1] [2, 5]
    DiagOp.identityLaw DiagOp.explicitLaw (by rfl) (by rfl) (by rfl) (by rfl) (by rfl)

end ExplicitEuler

namespace ExplicitEuler

variable {Op Arr R ε : Type}

/-- C2 (time-dependent recompute).  Let `L` be a time-dependent operator
obeying the two contract laws, with `setTime` keeping the time-dependence flag
and overwriting an earlier time setting; write `L1` and `L2` for `L` after
`setTime(t1)` and after `setTime(t2)`.  On the scheme built from `L` and
given `setStep(dt)`, the call `step(a, t1)` returns `a1 = a - dt*L1.applyTo(a)`
and the following call `step(a1, t2)` returns `a1 - dt*L2.applyTo(a1)`: each
step uses the operator at its own time.  (The times may also coincide.) -/
theorem step_time_dependent_recompute [Zero R] [Sub R] [Mul R]
    (ops : OperatorOps Op (List R) R ε)
    (L L1 L2 m1 e1 m2 e2 : Op) (dt t1 t2 : R) (a b1 b2 : List R)
    (s : ExplicitEuler Op R)
    (hid : IdentityLaw ops) (hex : ExplicitLaw ops)
    (htd : ops.isTimeDependent L = true)
    (hlen : a.length = ops.size L)
    (hset : setStep ops dt (new ops L) = .ok s)
    (hL1 : ops.setTime t1 L = .ok L1)
    (hL2 : ops.setTime t2 L = .ok L2)
    (hstatic : ops.isTimeDependent L1 = true)
    (hover : ops.setTime t2 L1 = ops.setTime t2 L)
    (hm1 : ops.smul dt L1 = .ok m1)
    (he1 : ops.sub (ops.identity (ops.size L)) m1 = .ok e1)
    (hm2 : ops.smul dt L2 = .ok m2)
    (he2 : ops.sub (ops.identity (ops.size L)) m2 = .ok e2)
    (hb1 : ops.applyTo L1 a = .ok b1)
    (hlen1 : (vsub a (vsmul dt b1)).length = ops.size L)
    (hb2 : ops.applyTo L2 (vsub a (vsmul dt b1)) = .ok b2) :
    ∃ s1 s2, step ops a t1 s = .ok (s1, vsub a (vsmul dt b1)) ∧
      step ops (vsub a (vsmul dt b1)) t2 s1 =
        .ok (s2, vsub (vsub a (vsmul dt b1)) (vsmul dt b2)) := by
  obtain ⟨e0, -, rfl⟩ := (setStep_eq_ok ops dt _ s).1 hset
  refine ⟨{ L_ := L1, I_ := ops.identity (ops.size L), explicitPart_ := e1, dt_ := dt },
    { L_ := L2, I_ := ops.identity (ops.size L), explicitPart_ := e2, dt_ := dt }, ?_, ?_⟩
  · rw [step_eq_ok]
    refine ⟨(stepUpdate_eq_ok ops t1 _ _).2 (Or.inr ⟨htd, L1, e1, hL1, ?_, rfl⟩), ?_⟩
    · exact (explicitExpr_eq_ok ops _ e1).2 ⟨m1, hm1, he1⟩
    · exact hex _ L1 m1 e1 dt a a b1 hm1 he1 (hid _ a hlen) hb1
  · rw [step_eq_ok]
    refine ⟨(stepUpdate_eq_ok ops t2 _ _).2
      (Or.inr ⟨hstatic, L2, e2, hover.trans hL2, ?_, rfl⟩), ?_⟩
    · exact (explicitExpr_eq_ok ops _ e2).2 ⟨m2, hm2, he2⟩
    · exact hex _ L2 m2 e2 dt _ _ b2 hm2 he2 (hid _ _ hlen1) hb2

/-- Witness for C2 on the synthetic operator whose diagonal at time `t` is
`t * (1, 2)`, with `dt = 1`, `a = [1, 1]`, `t1 = 2`, `t2 = 3`: the first step
yields `[1 - 2, 1 - 4] = [-1, -3]`, the second `[-1 + 3, -3 + 18] = [2, 15]`. -/
theorem step_time_dependent_recompute_witness :
    ∃ s1 s2,
      step DiagOp.ops [1, 1] 2
          ⟨⟨[0, 0], [1, 2], true⟩, ⟨[1, 1], [0, 0], false⟩, ⟨[1, 1], [-1, -2], true⟩, 1⟩ =
        .ok (s1, vsub [1, 1] (vsmul 1 [2, 4])) ∧
      step DiagOp.ops (vsub [1, 1] (vsmul 1 [2, 4])) 3 s1 =
        .ok (s2, vsub (vsub [1, 1] (vsmul 1 [2, 4])) (vsmul 1 [-3, -18])) :=
  step_time_dependent_recompute DiagOp.ops ⟨[0, 0], [1, 2], true⟩ ⟨[2, 4], [1, 2], true⟩
    ⟨[3, 6], [1, 2], true⟩ ⟨[2, 4], [1, 2], true⟩ ⟨[-1, -3], [-1, -2], true⟩
    ⟨[3, 6], [1, 2], true⟩ ⟨[-2, -5], [-1, -2], true⟩ 1 2 3 [1, 1] [2, 4] [-3, -18]
    ⟨⟨[0, 0], [1, 2], true⟩, ⟨[1, 1], [0, 0], false⟩, ⟨[1, 1], [-1, -2], true⟩, 1⟩
    DiagOp.identityLaw DiagOp.explicitLaw (by rfl) (by rfl) (by rfl) (by rfl) (by rfl)
    (by rfl) (by rfl) (by rfl) (by rfl) (by rfl) (by rfl) (by rfl) (by rfl) (by rfl)

/-- C4 (`setStep` effect and frame).  `setStep(dt)` returns the scheme state
`s'` exactly when the product `dt*L_` and the difference `I_ - dt*L_`,
computed with `L_` as it stands, return; then `dt_` is `dt`, `explicitPart_`
is that difference, and `L_` and `I_` are those of the state before. -/
theorem setStep_effect_frame (ops : OperatorOps Op Arr R ε) (dt : R)
    (s s' : ExplicitEuler Op R) :
    setStep ops dt s = .ok s' ↔
      ∃ m e, ops.smul dt s.L_ = .ok m ∧ ops.sub s.I_ m = .ok e ∧
        s' = { L_ := s.L_, I_ := s.I_, explicitPart_ := e, dt_ := dt } := by
  rw [setStep_eq_ok]
  constructor
  · rintro ⟨e, he, rfl⟩
    obtain ⟨m, hm, hs⟩ := (explicitExpr_eq_ok ops _ e).1 he
    exact ⟨m, e, hm, hs, rfl⟩
  · rintro ⟨m, e, hm, hs, rfl⟩
    exact ⟨e, (explicitExpr_eq_ok ops _ e).2 ⟨m, hm, hs⟩, rfl⟩

/-- Witness for C4: `setStep(3)` on a scheme holding `diag(2, 5)` with a
stale `dt_` and a stale explicit part. -/
theorem setStep_effect_frame_witness :
    ∃ m e, DiagOp.ops.smul 3 (⟨[2, 5], [0, 0], false⟩ : DiagOp) = .ok m ∧
      DiagOp.ops.sub (⟨[1, 1], [0, 0], false⟩ : DiagOp) m = .ok e ∧
      (⟨⟨[2, 5], [0, 0], false⟩, ⟨[1, 1], [0, 0], false⟩, ⟨[-5, -14], [0, 0], false⟩, 3⟩ :
          ExplicitEuler DiagOp Int) =
        { L_ := ⟨[2, 5], [0, 0], false⟩, I_ := ⟨[1, 1], [0, 0], false⟩,
          explicitPart_ := e, dt_ := 3 } :=
  (setStep_effect_frame DiagOp.ops 3
    ⟨⟨[2, 5], [0, 0], false⟩, ⟨[1, 1], [0, 0], false⟩, ⟨[], [], false⟩, 9⟩
    ⟨⟨[2, 5], [0, 0], false⟩, ⟨[1, 1], [0, 0], false⟩, ⟨[-5, -14], [0, 0], false⟩, 3⟩).1
    (by rfl)

/-- C5 (construction).  The scheme built by `ExplicitEuler(L)` holds `L_ = L`,
`I_ = Operator::identity(L.size())` and `dt_ = 0`; when `identity(n)` has size
`n` for `n = L.size()`, the sizes of `I_` and `L_` agree. -/
theorem new_fields [Zero R] (ops : OperatorOps Op Arr R ε) (L : Op)
    (hsize : ops.size (ops.identity (ops.size L)) = ops.size L) :
    (new ops L).L_ = L ∧ (new ops L).I_ = ops.identity (ops.size L) ∧
      (new ops L).dt_ = 0 ∧ ops.size (new ops L).I_ = ops.size (new ops L).L_ :=
  ⟨rfl, rfl, rfl, hsize⟩

/-- Witness for C5 on the synthetic operator `diag(2, 5)`. -/
theorem new_fields_witness :
    (new DiagOp.ops ⟨[2, 5], [0, 0], false⟩).L_ = ⟨[2, 5], [0, 0], false⟩ ∧
      (new DiagOp.ops ⟨[2, 5], [0, 0], false⟩).I_ = DiagOp.ops.identity 2 ∧
      (new DiagOp.ops ⟨[2, 5], [0, 0], false⟩).dt_ = 0 ∧
      DiagOp.ops.size (new DiagOp.ops ⟨[2, 5], [0, 0], false⟩).I_ =
        DiagOp.ops.size (new DiagOp.ops ⟨[2, 5], [0, 0], false⟩).L_ :=
  new_fields DiagOp.ops ⟨[2, 5], [0, 0], false⟩ (by rfl)

end ExplicitEuler

theorem except_bind_eq_error {ε α β : Type} (x : Except ε α) (f : α → Except ε β) (err : ε) :
    (x >>= f) = .error err ↔ x = .error err ∨ ∃ a, x = .ok a ∧ f a = .error err := by
  cases x <;> simp [bind, Except.bind]

namespace ExplicitEuler

variable {Op Arr R ε : Type}

theorem explicitExpr_eq_error (ops : OperatorOps Op Arr R ε) (s : ExplicitEuler Op R)
    (err : ε) :
    explicitExpr ops s = .error err ↔
      ops.smul s.dt_ s.L_ = .error err ∨
        ∃ m, ops.smul s.dt_ s.L_ = .ok m ∧ ops.sub s.I_ m = .error err := by
  simp only [explicitExpr, except_bind_eq_error]

theorem setStep_eq_error (ops : OperatorOps Op Arr R ε) (dt : R) (s : ExplicitEuler Op R)
    (err : ε) :
    setStep ops dt s = .error err ↔ explicitExpr ops { s with dt_ := dt } = .error err := by
  simp only [setStep, except_bind_eq_error]
  constructor
  · rintro (h | ⟨e, -, h⟩)
    · exact h
    · cases h
  · exact Or.inl

theorem stepUpdate_eq_error (ops : OperatorOps Op Arr R ε) (t : R) (s : ExplicitEuler Op R)
    (err : ε) :
    stepUpdate ops t s = .error err ↔
      ops.isTimeDependent s.L_ = true ∧
        (ops.setTime t s.L_ = .error err ∨
          ∃ L1, ops.setTime t s.L_ = .ok L1 ∧
            explicitExpr ops { s with L_ := L1 } = .error err) := by
  unfold stepUpdate
  cases htd : ops.isTimeDependent s.L_
  · simp only [Bool.false_eq_true, if_false, false_and, iff_false]
    intro h; cases h
  · simp only [if_true, except_bind_eq_error, true_and]
    constructor
    · rintro (h | ⟨L1, h1, h | ⟨e, -, h⟩⟩)
      · exact Or.inl h
      · exact Or.inr ⟨L1, h1, h⟩
      · cases h
    · rintro (h | ⟨L1, h1, h⟩)
      · exact Or.inl h
      · exact Or.inr ⟨L1, h1, Or.inl h⟩

theorem step_eq_error (ops : OperatorOps Op Arr R ε) (a : Arr) (t : R)
    (s : ExplicitEuler Op R) (err : ε) :
    step ops a t s = .error err ↔
      stepUpdate ops t s = .error err ∨
        ∃ s1, stepUpdate ops t s = .ok s1 ∧ ops.applyTo s1.explicitPart_ a = .error err := by
  simp only [step, except_bind_eq_error]
  constructor
  · rintro (h | ⟨s1, h1, h | ⟨a1, -, h⟩⟩)
    · exact Or.inl h
    · exact Or.inr ⟨s1, h1, h⟩
    · cases h
  · rintro (h | ⟨s1, h1, h⟩)
    · exact Or.inl h
    · exact Or.inr ⟨s1, h1, Or.inl h⟩

/-- C6 (no local failure, no stability check).  For every `dt`, scheme state,
state vector and time:
`setStep(dt)` returns the plain value `(L_, I_, I_ - dt*L_, dt)` whenever the
product and the difference return; `step(a, t)` returns
`explicitPart_.applyTo(a)` for a time-constant `L_` whenever that application
returns, and for a time-dependent `L_` returns the application of the
recomputed `I_ - dt_*L_` whenever `setTime`, the product, the difference and
the application return; and every failure of `setStep` or `step` is the
failure of one of these operator calls.  No condition on `dt` appears. -/
theorem setStep_step_no_local_failure (ops : OperatorOps Op Arr R ε) (dt t : R) (a : Arr)
    (s : ExplicitEuler Op R) :
    (∀ m e, ops.smul dt s.L_ = .ok m → ops.sub s.I_ m = .ok e →
        setStep ops dt s = .ok { L_ := s.L_, I_ := s.I_, explicitPart_ := e, dt_ := dt }) ∧
    (∀ a', ops.isTimeDependent s.L_ = false → ops.applyTo s.explicitPart_ a = .ok a' →
        step ops a t s = .ok (s, a')) ∧
    (∀ L1 m e a', ops.isTimeDependent s.L_ = true → ops.setTime t s.L_ = .ok L1 →
        ops.smul s.dt_ L1 = .ok m → ops.sub s.I_ m = .ok e → ops.applyTo e a = .ok a' →
        step ops a t s =
          .ok ({ L_ := L1, I_ := s.I_, explicitPart_ := e, dt_ := s.dt_ }, a')) ∧
    (∀ err, setStep ops dt s = .error err →
        ops.smul dt s.L_ = .error err ∨
          ∃ m, ops.smul dt s.L_ = .ok m ∧ ops.sub s.I_ m = .error err) ∧
    (∀ err, step ops a t s = .error err →
        (ops.isTimeDependent s.L_ = false ∧ ops.applyTo s.explicitPart_ a = .error err) ∨
        (ops.isTimeDependent s.L_ = true ∧
          (ops.setTime t s.L_ = .error err ∨
            ∃ L1, ops.setTime t s.L_ = .ok L1 ∧
              (ops.smul s.dt_ L1 = .error err ∨
                ∃ m, ops.smul s.dt_ L1 = .ok m ∧
                  (ops.sub s.I_ m = .error err ∨
                    ∃ e, ops.sub s.I_ m = .ok e ∧ ops.applyTo e a = .error err))))) := by
  refine ⟨?_, ?_, ?_, ?_, ?_⟩
  · intro m e hm he
    exact (setStep_eq_ok ops dt s _).2 ⟨e, (explicitExpr_eq_ok ops _ e).2 ⟨m, hm, he⟩, rfl⟩
  · intro a' hti ha
    exact (step_eq_ok ops a a' t s s).2
      ⟨(stepUpdate_eq_ok ops t s s).2 (Or.inl ⟨hti, rfl⟩), ha⟩
  · intro L1 m e a' htd hL1 hm he ha
    exact (step_eq_ok ops a a' t s _).2
      ⟨(stepUpdate_eq_ok ops t s _).2
        (Or.inr ⟨htd, L1, e, hL1, (explicitExpr_eq_ok ops _ e).2 ⟨m, hm, he⟩, rfl⟩), ha⟩
  · intro err h
    exact (explicitExpr_eq_error ops _ err).1 ((setStep_eq_error ops dt s err).1 h)
  · intro err h
    rcases (step_eq_error ops a t s err).1 h with h1 | ⟨s1, h1, h2⟩
    · obtain ⟨htd, h3⟩ := (stepUpdate_eq_error ops t s err).1 h1
      refine Or.inr ⟨htd, ?_⟩
      rcases h3 with h3 | ⟨L1, hL1, h3⟩
      · exact Or.inl h3
      · refine Or.inr ⟨L1, hL1, ?_⟩
        rcases (explicitExpr_eq_error ops _ err).1 h3 with h4 | ⟨m, hm, h4⟩
        · exact Or.inl h4
        · exact Or.inr ⟨m, hm, Or.inl h4⟩
    · rcases (stepUpdate_eq_ok ops t s s1).1 h1 with ⟨hti, rfl⟩ | ⟨htd, L1, e, hL1, he, rfl⟩
      · exact Or.inl ⟨hti, h2⟩
      · obtain ⟨m, hm, hs⟩ := (explicitExpr_eq_ok ops _ e).1 he
        exact Or.inr ⟨htd, Or.inr ⟨L1, hL1, Or.inr ⟨m, hm, Or.inr ⟨e, hs, h2⟩⟩⟩⟩

/-- Witness for C6: with the large negative step `dt = -1000000` the scheme
holding `diag(2, 5)` returns the plain formula value from `setStep`, and
`step` on `[1, 1]` returns the product with the stored explicit part. -/
theorem setStep_step_no_local_failure_witness :
    setStep DiagOp.ops (-1000000)
        ⟨⟨[2, 5], [0, 0], false⟩, ⟨[1, 1], [0, 0], false⟩, ⟨[7, 7], [0, 0], false⟩, 0⟩ =
      .ok ⟨⟨[2, 5], [0, 0], false⟩, ⟨[1, 1], [0, 0], false⟩,
        ⟨[2000001, 5000001], [0, 0], false⟩, -1000000⟩ ∧
    step DiagOp.ops [1, 1] 4
        ⟨⟨[2, 5], [0, 0], false⟩, ⟨[1, 1], [0, 0], false⟩, ⟨[7, 7], [0, 0], false⟩, 0⟩ =
      .ok (⟨⟨[2, 5], [0, 0], false⟩, ⟨[1, 1], [0, 0], false⟩, ⟨[7, 7], [0, 0], false⟩, 0⟩,
        [7, 7]) :=
  ⟨(setStep_step_no_local_failure DiagOp.ops (-1000000) 4 [1, 1]
      ⟨⟨[2, 5], [0, 0], false⟩, ⟨[1, 1], [0, 0], false⟩, ⟨[7, 7], [0, 0], false⟩, 0⟩).1
      ⟨[-2000000, -5000000], [0, 0], false⟩ ⟨[2000001, 5000001], [0, 0], false⟩
      (by rfl) (by rfl),
   (setStep_step_no_local_failure DiagOp.ops (-1000000) 4 [1, 1]
      ⟨⟨[2, 5], [0, 0], false⟩, ⟨[1, 1], [0, 0], false⟩, ⟨[7, 7], [0, 0], false⟩, 0⟩).2.1
      [7, 7] (by rfl) (by rfl)⟩

end ExplicitEuler

namespace ExplicitEuler

variable {Op Arr R ε : Type}

theorem step_time_constant (ops : OperatorOps Op Arr R ε) (a : Arr) (t t' : R)
    (s : ExplicitEuler Op R) (hti : ops.isTimeDependent s.L_ = false) :
    step ops a t' s = step ops a t s := by
  simp only [step, stepUpdate, hti, Bool.false_eq_true, if_false]

/-- C9 (cached explicit part).  If `L_` is time-independent, `step(a, t)`
gives the same outcome for every time `t`, and when it returns the scheme
state after the call is the state before it (`L_`, `I_`, `dt_` and
`explicitPart_` all unchanged).  If `L_` is time-dependent and `step(a, t)`
returns, then `dt_` and `I_` are unchanged and the new `L_` is the old one
after `setTime(t)`. -/
theorem step_frame (ops : OperatorOps Op Arr R ε) (a : Arr) (t : R)
    (s : ExplicitEuler Op R) :
    (ops.isTimeDependent s.L_ = false →
        (∀ t', step ops a t' s = step ops a t s) ∧
        (∀ s' a', step ops a t s = .ok (s', a') → s' = s)) ∧
    (ops.isTimeDependent s.L_ = true →
        ∀ s' a', step ops a t s = .ok (s', a') →
          s'.dt_ = s.dt_ ∧ s'.I_ = s.I_ ∧ ops.setTime t s.L_ = .ok s'.L_) := by
  constructor
  · intro hti
    refine ⟨fun t' => ?_, fun s' a' h => ?_⟩
    · exact step_time_constant ops a t t' s hti
    · rcases (stepUpdate_eq_ok ops t s s').1 ((step_eq_ok ops a a' t s s').1 h).1 with
        ⟨-, h1⟩ | ⟨h1, -⟩
      · exact h1
      · rw [hti] at h1; cases h1
  · intro htd s' a' h
    rcases (stepUpdate_eq_ok ops t s s').1 ((step_eq_ok ops a a' t s s').1 h).1 with
      ⟨h1, -⟩ | ⟨-, L1, e, hL1, -, rfl⟩
    · rw [htd] at h1; cases h1
    · exact ⟨rfl, rfl, hL1⟩

/-- Witness for C9: a time-constant scheme steps at times `4` and `-9` with
the same outcome and an unchanged scheme; a time-dependent scheme stepping at
time `2` keeps `dt_` and `I_` and moves `L_` to time `2`. -/
theorem step_frame_witness :
    ((∀ t', step DiagOp.ops [1, 1] t'
          ⟨⟨[2, 5], [0, 0], false⟩, ⟨[1, 1], [0, 0], false⟩, ⟨[-5, -14], [0, 0], false⟩, 3⟩ =
        step DiagOp.ops [1, 1] 4
          ⟨⟨[2, 5], [0, 0], false⟩, ⟨[1, 1], [0, 0], false⟩, ⟨[-5, -14], [0, 0], false⟩, 3⟩) ∧
      (∀ s' a', step DiagOp.ops [1, 1] 4
          ⟨⟨[2, 5], [0, 0], false⟩, ⟨[1, 1], [0, 0], false⟩, ⟨[-5, -14], [0, 0], false⟩, 3⟩ =
        .ok (s', a') →
        s' = ⟨⟨[2, 5], [0, 0], false⟩, ⟨[1, 1], [0, 0], false⟩,
          ⟨[-5, -14], [0, 0], false⟩, 3⟩)) ∧
    ((⟨⟨[2, 4], [1, 2], true⟩, ⟨[1, 1], [0, 0], false⟩, ⟨[-1, -3], [-1, -2], true⟩, 1⟩ :
          ExplicitEuler DiagOp Int).dt_ = 1 ∧
      (⟨⟨[2, 4], [1, 2], true⟩, ⟨[1, 1], [0, 0], false⟩, ⟨[-1, -3], [-1, -2], true⟩, 1⟩ :
          ExplicitEuler DiagOp Int).I_ = ⟨[1, 1], [0, 0], false⟩ ∧
      DiagOp.ops.setTime 2 (⟨[0, 0], [1, 2], true⟩ : DiagOp) =
        .ok (⟨⟨[2, 4], [1, 2], true⟩, ⟨[1, 1], [0, 0], false⟩, ⟨[-1, -3], [-1, -2], true⟩, 1⟩ :
          ExplicitEuler DiagOp Int).L_) :=
  ⟨(step_frame DiagOp.ops [1, 1] 4
      ⟨⟨[2, 5], [0, 0], false⟩, ⟨[1, 1], [0, 0], false⟩, ⟨[-5, -14], [0, 0], false⟩, 3⟩).1
      (by rfl),
   (step_frame DiagOp.ops [1, 1] 2
      ⟨⟨[0, 0], [1, 2], true⟩, ⟨[1, 1], [0, 0], false⟩, ⟨[1, 1], [-1, -2], true⟩, 1⟩).2
      (by rfl) _ [-1, -3] (by rfl)⟩

/-! ### Length of the state vector -/

theorem size_explicitExpr (ops : OperatorOps Op Arr R ε)
    (hsub : ∀ x y e, ops.sub x y = .ok e → ops.size e = ops.size x)
    (s : ExplicitEuler Op R) (e : Op) (h : explicitExpr ops s = .ok e) :
    ops.size e = ops.size s.I_ := by
  obtain ⟨m, -, hs⟩ := (explicitExpr_eq_ok ops s e).1 h
  exact hsub _ _ _ hs

theorem steps_length (ops : OperatorOps Op (List R) R ε) (N : Nat)
    (hsub : ∀ x y e, ops.sub x y = .ok e → ops.size e = ops.size x)
    (happ : ∀ o v w, v.length = ops.size o → ops.applyTo o v = .ok w →
      w.length = ops.size o)
    (ts : List R) :
    ∀ (s s' : ExplicitEuler Op R) (a a' : List R),
      ops.size s.I_ = N → ops.size s.explicitPart_ = N → a.length = N →
      steps ops s a ts = .ok (s', a') → a'.length = N := by
  induction ts with
  | nil =>
    intro s s' a a' _ _ ha h
    simp only [steps, except_pure_eq_ok, Prod.mk.injEq] at h
    rw [← h.2]; exact ha
  | cons t ts ih =>
    intro s s' a a' hI hE ha h
    simp only [steps, except_bind_eq_ok] at h
    obtain ⟨⟨s1, a1⟩, h1, h2⟩ := h
    obtain ⟨hu, hap⟩ := (step_eq_ok ops a a1 t s s1).1 h1
    have hs1 : ops.size s1.I_ = N ∧ ops.size s1.explicitPart_ = N := by
      rcases (stepUpdate_eq_ok ops t s s1).1 hu with ⟨-, rfl⟩ | ⟨-, L1, e, -, he, rfl⟩
      · exact ⟨hI, hE⟩
      · exact ⟨hI, (size_explicitExpr ops hsub _ e he).trans hI⟩
    have ha1 : a1.length = N := by
      have := happ s1.explicitPart_ a a1 (by rw [ha, hs1.2]) hap
      rw [this, hs1.2]
    exact ih s1 s' a1 a' hs1.1 hs1.2 ha1 h2

/-- C10 (state length is preserved).  Let the difference of operators return
an operator of the size of its left operand, let `identity(n)` have size `n`,
and let `applyTo` map vectors of length `size()` to vectors of length
`size()`.  For a state vector `a` of length `N = L.size()`, after
`setStep(dt)` on the scheme built from `L`, any number of consecutive `step`
calls (at any times `ts`) that return leave a state vector of length `N`. -/
theorem steps_preserve_length [Zero R] (ops : OperatorOps Op (List R) R ε) (L : Op)
    (dt : R) (ts : List R) (a a' : List R) (s s' : ExplicitEuler Op R)
    (hsub : ∀ x y e, ops.sub x y = .ok e → ops.size e = ops.size x)
    (hid : ∀ n, ops.size (ops.identity n) = n)
    (happ : ∀ o v w, v.length = ops.size o → ops.applyTo o v = .ok w →
      w.length = ops.size o)
    (hlen : a.length = ops.size L)
    (hset : setStep ops dt (new ops L) = .ok s)
    (hsteps : steps ops s a ts = .ok (s', a')) :
    a'.length = ops.size L := by
  obtain ⟨e, he, rfl⟩ := (setStep_eq_ok ops dt _ s).1 hset
  have hI : ops.size (new ops L).I_ = ops.size L := hid _
  exact steps_length ops (ops.size L) hsub happ ts
    { L_ := L, I_ := ops.identity (ops.size L), explicitPart_ := e, dt_ := dt } s' a a' hI
    ((size_explicitExpr ops hsub _ e he).trans hI) hlen hsteps

end ExplicitEuler

theorem DiagOp.size_sub (x y e : DiagOp) (h : DiagOp.ops.sub x y = .ok e) :
    DiagOp.ops.size e = DiagOp.ops.size x := by
  simp only [DiagOp.ops, DiagOp.sub] at h ⊢
  split at h
  · simp only [pure, Except.pure, Except.ok.injEq] at h
    subst h
    rename_i h1
    simp [h1]
  · cases h

theorem DiagOp.size_identity (n : Nat) : DiagOp.ops.size (DiagOp.ops.identity n) = n := by
  simp [DiagOp.ops, DiagOp.identity]

theorem DiagOp.length_applyTo (o : DiagOp) (v w : List Int)
    (hv : v.length = DiagOp.ops.size o) (h : DiagOp.ops.applyTo o v = .ok w) :
    w.length = DiagOp.ops.size o := by
  simp only [DiagOp.ops, DiagOp.applyTo] at h hv ⊢
  rw [if_pos hv] at h
  simp only [pure, Except.pure, Except.ok.injEq] at h
  subst h
  simp [hv]

/-- Witness for C10: three steps of the time-dependent synthetic operator of
size 2 leave a vector of length 2. -/
theorem steps_preserve_length_witness :
    ExplicitEuler.steps DiagOp.ops
        ⟨⟨[0, 0], [1, 2], true⟩, ⟨[1, 1], [0, 0], false⟩, ⟨[1, 1], [-1, -2], true⟩, 1⟩
        [1, 1] [2, 3, 4] =
      .ok (⟨⟨[4, 8], [1, 2], true⟩, ⟨[1, 1], [0, 0], false⟩, ⟨[-3, -7], [-1, -2], true⟩, 1⟩,
        [-6, -105]) ∧
    ([-6, -105] : List Int).length = DiagOp.ops.size ⟨[0, 0], [1, 2], true⟩ :=
  ⟨by rfl, ExplicitEuler.steps_preserve_length DiagOp.ops ⟨[0, 0], [1, 2], true⟩ 1 [2, 3, 4] [1, 1]
    [-6, -105]
    ⟨⟨[0, 0], [1, 2], true⟩, ⟨[1, 1], [0, 0], false⟩, ⟨[1, 1], [-1, -2], true⟩, 1⟩
    ⟨⟨[4, 8], [1, 2], true⟩, ⟨[1, 1], [0, 0], false⟩, ⟨[-3, -7], [-1, -2], true⟩, 1⟩
    DiagOp.size_sub DiagOp.size_identity DiagOp.length_applyTo (by rfl) (by rfl) (by rfl)⟩

namespace ExplicitEuler

variable {Op Arr R ε : Type}

/-! ### The scheme invariant -/

theorem valid_of_setStep (ops : OperatorOps Op Arr R ε) (dt : R) (s s' : ExplicitEuler Op R)
    (h : setStep ops dt s = .ok s') : ExplicitPartValid ops s' := by
  obtain ⟨e, he, rfl⟩ := (setStep_eq_ok ops dt s s').1 h
  exact he

theorem valid_of_stepUpdate (ops : OperatorOps Op Arr R ε) (t : R) (s s' : ExplicitEuler Op R)
    (h : stepUpdate ops t s = .ok s')
    (hs : ExplicitPartValid ops s ∨ ops.isTimeDependent s.L_ = true) :
    ExplicitPartValid ops s' := by
  rcases (stepUpdate_eq_ok ops t s s').1 h with ⟨hti, rfl⟩ | ⟨-, L1, e, -, he, rfl⟩
  · rcases hs with hs | hs
    · exact hs
    · rw [hti] at hs; cases hs
  · exact he

theorem valid_runCalls (ops : OperatorOps Op Arr R ε) (calls : List (Call Arr R)) :
    ∀ s s' : ExplicitEuler Op R, ExplicitPartValid ops s →
      runCalls ops s calls = .ok s' → ExplicitPartValid ops s' := by
  induction calls with
  | nil =>
    intro s s' hs h
    simp only [runCalls, except_pure_eq_ok] at h
    rw [← h]; exact hs
  | cons c cs ih =>
    intro s s' hs h
    cases c with
    | setStep dt =>
      simp only [runCalls, except_bind_eq_ok] at h
      obtain ⟨s1, h1, h2⟩ := h
      exact ih s1 s' (valid_of_setStep ops dt s s1 h1) h2
    | step a t =>
      simp only [runCalls, except_bind_eq_ok] at h
      obtain ⟨⟨s1, a1⟩, h1, h2⟩ := h
      exact ih s1 s' (valid_of_stepUpdate ops t s s1
        ((step_eq_ok ops a a1 t s s1).1 h1).1 (Or.inl hs)) h2

theorem valid_runCalls_of_setStep (ops : OperatorOps Op Arr R ε)
    (calls : List (Call Arr R)) :
    ∀ s s' : ExplicitEuler Op R, (∃ dt, Call.setStep dt ∈ calls) →
      runCalls ops s calls = .ok s' → ExplicitPartValid ops s' := by
  induction calls with
  | nil =>
    rintro s s' ⟨dt, hdt⟩ -
    cases hdt
  | cons c cs ih =>
    rintro s s' ⟨dt, hdt⟩ h
    cases c with
    | setStep dt' =>
      simp only [runCalls, except_bind_eq_ok] at h
      obtain ⟨s1, h1, h2⟩ := h
      exact valid_runCalls ops cs s1 s' (valid_of_setStep ops dt' s s1 h1) h2
    | step a t =>
      simp only [runCalls, except_bind_eq_ok] at h
      obtain ⟨⟨s1, a1⟩, -, h2⟩ := h
      have hmem : Call.setStep dt ∈ cs := by
        rcases List.mem_cons.1 hdt with h3 | h3
        · cases h3
        · exact h3
      exact ih s1 s' ⟨dt, hmem⟩ h2

theorem valid_or_untouched_runCalls (ops : OperatorOps Op Arr R ε)
    (calls : List (Call Arr R)) :
    ∀ s s' : ExplicitEuler Op R, runCalls ops s calls = .ok s' →
      ExplicitPartValid ops s' ∨ s' = s := by
  induction calls with
  | nil =>
    intro s s' h
    simp only [runCalls, except_pure_eq_ok] at h
    exact Or.inr h.symm
  | cons c cs ih =>
    intro s s' h
    cases c with
    | setStep dt =>
      simp only [runCalls, except_bind_eq_ok] at h
      obtain ⟨s1, h1, h2⟩ := h
      exact Or.inl (valid_runCalls ops cs s1 s' (valid_of_setStep ops dt s s1 h1) h2)
    | step a t =>
      simp only [runCalls, except_bind_eq_ok] at h
      obtain ⟨⟨s1, a1⟩, h1, h2⟩ := h
      have hu := ((step_eq_ok ops a a1 t s s1).1 h1).1
      rcases (stepUpdate_eq_ok ops t s s1).1 hu with ⟨-, rfl⟩ | ⟨htd, -⟩
      · exact ih _ s' h2
      · exact Or.inl (valid_runCalls ops cs s1 s'
          (valid_of_stepUpdate ops t s s1 hu (Or.inr htd)) h2)

/-- C3, as the code has it (scheme invariant).  Take any sequence of
`setStep` and `step` calls made on the scheme built from `L`, followed by a
further `step` at time `t`.  If `L` is time-dependent, or if the sequence
contains a `setStep`, then at the moment that step applies `explicitPart_`
(after its conditional recomputation), `explicitPart_` equals `I_ - dt_*L_`
for the scheme's current `dt_` and the current time setting of `L_`. -/
theorem explicitPart_valid_at_apply [Zero R] (ops : OperatorOps Op Arr R ε) (L : Op)
    (calls : List (Call Arr R)) (t : R) (s s' : ExplicitEuler Op R)
    (hrun : runCalls ops (new ops L) calls = .ok s)
    (hupd : stepUpdate ops t s = .ok s')
    (hpre : ops.isTimeDependent L = true ∨ ∃ dt, Call.setStep dt ∈ calls) :
    ExplicitPartValid ops s' := by
  rcases hpre with htd | hmem
  · rcases valid_or_untouched_runCalls ops calls _ s hrun with hv | rfl
    · exact valid_of_stepUpdate ops t s s' hupd (Or.inl hv)
    · exact valid_of_stepUpdate ops t _ s' hupd (Or.inr htd)
  · exact valid_of_stepUpdate ops t s s' hupd
      (Or.inl (valid_runCalls_of_setStep ops calls _ s hmem hrun))

/-- Witness for the amended C3: on the time-constant operator `diag(2, 5)`
the calls `step`, `setStep(3)`, `step` are followed by a step whose explicit
part is `I - 3*L = diag(-5, -14)`. -/
theorem explicitPart_valid_at_apply_witness :
    ExplicitPartValid DiagOp.ops
      (⟨⟨[2, 5], [0, 0], false⟩, ⟨[1, 1], [0, 0], false⟩, ⟨[-5, -14], [0, 0], false⟩, 3⟩ :
        ExplicitEuler DiagOp Int) :=
  explicitPart_valid_at_apply DiagOp.ops ⟨[2, 5], [0, 0], false⟩
    [Call.step [] 1, Call.setStep 3, Call.step [1, 1] 2] 5
    ⟨⟨[2, 5], [0, 0], false⟩, ⟨[1, 1], [0, 0], false⟩, ⟨[-5, -14], [0, 0], false⟩, 3⟩
    ⟨⟨[2, 5], [0, 0], false⟩, ⟨[1, 1], [0, 0], false⟩, ⟨[-5, -14], [0, 0], false⟩, 3⟩
    (by rfl) (by rfl) (Or.inr ⟨3, by simp⟩)

/-- Counterexample to C3 as stated: on the time-constant operator `diag(2, 5)`
a `step` issued right after construction, before any `setStep`, reaches the
application of `explicitPart_` with the default-constructed operator in it,
while `I_ - dt_*L_` is `diag(1, 1)`. -/
theorem explicitPart_invalid_before_setStep :
    runCalls DiagOp.ops (new DiagOp.ops ⟨[2, 5], [0, 0], false⟩) ([] : List (Call (List Int) Int)) =
      .ok (new DiagOp.ops ⟨[2, 5], [0, 0], false⟩) ∧
    stepUpdate DiagOp.ops 7 (new DiagOp.ops ⟨[2, 5], [0, 0], false⟩) =
      .ok (new DiagOp.ops ⟨[2, 5], [0, 0], false⟩) ∧
    (new DiagOp.ops ⟨[2, 5], [0, 0], false⟩).explicitPart_ = ⟨[], [], false⟩ ∧
    explicitExpr DiagOp.ops (new DiagOp.ops ⟨[2, 5], [0, 0], false⟩) =
      .ok ⟨[1, 1], [0, 0], false⟩ ∧
    ¬ ExplicitPartValid DiagOp.ops (new DiagOp.ops ⟨[2, 5], [0, 0], false⟩) := by
  refine ⟨by rfl, by rfl, by rfl, by rfl, ?_⟩
  intro h
  have h2 : explicitExpr DiagOp.ops (new DiagOp.ops ⟨[2, 5], [0, 0], false⟩) =
      .ok ⟨[1, 1], [0, 0], false⟩ := by rfl
  unfold ExplicitPartValid at h
  rw [h2] at h
  simp [new, DiagOp.ops] at h

end ExplicitEuler

/-! ## The stepping driver: the record of calls -/

section DriverFacts

variable {S Arr R ε : Type}

theorem liftCall_eq_ok {α : Type} (x : Except ε α) (a : α) :
    liftCall x = .ok a ↔ x = .ok a := by
  cases x <;> simp [liftCall]

theorem applyConditions_trace (t : R) (conds : List (Arr → R → Except ε Arr)) :
    ∀ (i : Nat) (a : Arr) (r : Arr × List (Event R)),
      applyConditions t conds i a = .ok r → r.2 = conditionEvents t conds.length i := by
  induction conds with
  | nil =>
    intro i a r h
    simp only [applyConditions, except_pure_eq_ok] at h
    rw [← h]; rfl
  | cons c cs ih =>
    intro i a r h
    simp only [applyConditions, except_bind_eq_ok, except_pure_eq_ok] at h
    obtain ⟨a1, -, r1, h1, rfl⟩ := h
    simp only [List.length_cons, conditionEvents, ih (i + 1) a1 r1 h1]

theorem applyConditions_returns (t : R) (conds : List (Arr → R → Except ε Arr))
    (hc : ∀ c ∈ conds, ∀ a, ∃ a', c a t = .ok a') :
    ∀ (i : Nat) (a : Arr), ∃ r, applyConditions t conds i a = .ok r := by
  induction conds with
  | nil => intro i a; exact ⟨(a, []), rfl⟩
  | cons c cs ih =>
    intro i a
    obtain ⟨a1, h1⟩ := hc c (List.mem_cons_self c cs) a
    obtain ⟨r, h2⟩ := ih (fun c' hc' => hc c' (List.mem_cons_of_mem c hc')) (i + 1) a1
    refine ⟨(r.1, Event.condition i t :: r.2), ?_⟩
    simp only [applyConditions, except_bind_eq_ok, except_pure_eq_ok]
    exact ⟨a1, (liftCall_eq_ok _ _).2 h1, r, h2, rfl⟩

variable [LinearOrderedRing R]

theorem handStep_trace (sch : SchemeOps S Arr R ε) (h : R) (d : Session S Arr R)
    (r : S × List (Event R)) (hr : handStep sch h d = .ok r) :
    r.2 = if d.dt = some h then [] else [Event.setStep h] := by
  unfold handStep at hr
  by_cases hd : d.dt = some h
  · simp only [hd, if_true, except_pure_eq_ok] at hr ⊢
    rw [← hr]
  · simp only [hd, if_false, except_bind_eq_ok, except_pure_eq_ok] at hr ⊢
    obtain ⟨s, -, rfl⟩ := hr
    rfl

theorem atStoppingTime_trace (conds : List (Arr → R → Except ε Arr)) (stops : List R)
    (t : R) (a : Arr) (c : Arr × List (Event R))
    (hc : atStoppingTime conds stops t a = .ok c) :
    c.2 = if t ∈ stops then conditionEvents t conds.length 0 else [] := by
  unfold atStoppingTime at hc
  by_cases hm : t ∈ stops
  · simp only [hm, if_true] at hc ⊢
    exact applyConditions_trace t conds 0 a c hc
  · simp only [hm, if_false, except_pure_eq_ok] at hc ⊢
    rw [← hc]

theorem subInterval_trace (sch : SchemeOps S Arr R ε)
    (conds : List (Arr → R → Except ε Arr)) (stops : List R) (d d' : Session S Arr R)
    (tk tk1 : R) (h : subInterval sch conds stops d tk tk1 = .ok d') :
    d'.dt = some |tk1 - tk| ∧
      d'.trace = d.trace ++
        ((if d.dt = some |tk1 - tk| then [] else [Event.setStep |tk1 - tk|]) ++
          Event.step tk :: (if tk1 ∈ stops then conditionEvents tk1 conds.length 0 else [])) := by
  simp only [subInterval, except_bind_eq_ok, except_pure_eq_ok] at h
  obtain ⟨s1, h1, r, -, c, h3, rfl⟩ := h
  refine ⟨rfl, ?_⟩
  simp only [handStep_trace sch _ d s1 h1, atStoppingTime_trace conds stops tk1 r.2 c h3,
    List.append_assoc]

theorem traverse_trace (sch : SchemeOps S Arr R ε)
    (conds : List (Arr → R → Except ε Arr)) (stops : List R) (path : List R) :
    ∀ d d' : Session S Arr R, traverse sch conds stops d path = .ok d' →
      d'.trace = d.trace ++ schedule stops conds.length d.dt path := by
  induction path with
  | nil =>
    intro d d' h
    simp only [traverse, except_pure_eq_ok] at h
    simp [schedule, h]
  | cons t0 rest ih =>
    intro d d' h
    cases rest with
    | nil =>
      simp only [traverse, except_pure_eq_ok] at h
      simp [schedule, h]
    | cons t1 rest =>
      simp only [traverse, except_bind_eq_ok] at h
      obtain ⟨d1, h1, h2⟩ := h
      obtain ⟨hdt, htr⟩ := subInterval_trace sch conds stops d d1 t0 t1 h1
      rw [ih d1 d' h2, htr, hdt]
      simp only [schedule, List.append_assoc, List.cons_append]

theorem rollback_trace (sch : SchemeOps S Arr R ε) (scheme : S) (state : Arr)
    (fromTime toTime : R) (grid : TimeGrid R) (conds : List (Arr → R → Except ε Arr))
    (d : Session S Arr R)
    (h : rollback sch scheme state fromTime toTime grid conds = .ok d) :
    d.trace = schedule grid.stoppingTimes conds.length none
      (segment fromTime toTime grid.times) := by
  unfold rollback at h
  split at h
  · cases h
  · have := traverse_trace sch conds grid.stoppingTimes _ _ d h
    simpa using this

theorem subInterval_returns (sch : SchemeOps S Arr R ε)
    (conds : List (Arr → R → Except ε Arr)) (stops : List R)
    (hset : ∀ h s, ∃ s', sch.setStep h s = .ok s')
    (hstep : ∀ a t s, ∃ r, sch.step a t s = .ok r)
    (hcond : ∀ c ∈ conds, ∀ a t, ∃ a', c a t = .ok a')
    (d : Session S Arr R) (tk tk1 : R) :
    ∃ d', subInterval sch conds stops d tk tk1 = .ok d' := by
  have h1 : ∃ s1, handStep sch |tk1 - tk| d = .ok s1 := by
    unfold handStep
    by_cases hd : d.dt = some |tk1 - tk|
    · exact ⟨(d.scheme, []), by simp only [hd, if_true]; rfl⟩
    · obtain ⟨s, hs⟩ := hset |tk1 - tk| d.scheme
      refine ⟨(s, [Event.setStep |tk1 - tk|]), ?_⟩
      simp only [hd, if_false, except_bind_eq_ok, except_pure_eq_ok]
      exact ⟨s, (liftCall_eq_ok _ _).2 hs, rfl⟩
  obtain ⟨s1, hs1⟩ := h1
  obtain ⟨r, hr⟩ := hstep d.state tk s1.1
  have h3 : ∃ c, atStoppingTime conds stops tk1 r.2 = .ok c := by
    unfold atStoppingTime
    by_cases hm : tk1 ∈ stops
    · simp only [hm, if_true]
      exact applyConditions_returns tk1 conds (fun c hc a => hcond c hc a tk1) 0 r.2
    · exact ⟨(r.2, []), by simp only [hm, if_false]; rfl⟩
  obtain ⟨c, hc⟩ := h3
  refine ⟨{ scheme := r.1, state := c.1, dt := some |tk1 - tk|,
            trace := d.trace ++ s1.2 ++ Event.step tk :: c.2 }, ?_⟩
  simp only [subInterval, except_bind_eq_ok, except_pure_eq_ok]
  exact ⟨s1, hs1, r, (liftCall_eq_ok _ _).2 hr, c, hc, rfl⟩

theorem traverse_returns (sch : SchemeOps S Arr R ε)
    (conds : List (Arr → R → Except ε Arr)) (stops : List R)
    (hset : ∀ h s, ∃ s', sch.setStep h s = .ok s')
    (hstep : ∀ a t s, ∃ r, sch.step a t s = .ok r)
    (hcond : ∀ c ∈ conds, ∀ a t, ∃ a', c a t = .ok a')
    (path : List R) :
    ∀ d : Session S Arr R, ∃ d', traverse sch conds stops d path = .ok d' := by
  induction path with
  | nil => intro d; exact ⟨d, rfl⟩
  | cons t0 rest ih =>
    intro d
    cases rest with
    | nil => exact ⟨d, rfl⟩
    | cons t1 rest =>
      obtain ⟨d1, h1⟩ := subInterval_returns sch conds stops hset hstep hcond d t0 t1
      obtain ⟨d2, h2⟩ := ih d1
      refine ⟨d2, ?_⟩
      simp only [traverse, except_bind_eq_ok]
      exact ⟨d1, h1, h2⟩

theorem rollback_returns (sch : SchemeOps S Arr R ε) (scheme : S) (state : Arr)
    (fromTime toTime : R) (grid : TimeGrid R) (conds : List (Arr → R → Except ε Arr))
    (hgrid : grid.times ≠ [])
    (hset : ∀ h s, ∃ s', sch.setStep h s = .ok s')
    (hstep : ∀ a t s, ∃ r, sch.step a t s = .ok r)
    (hcond : ∀ c ∈ conds, ∀ a t, ∃ a', c a t = .ok a') :
    ∃ d, rollback sch scheme state fromTime toTime grid conds = .ok d := by
  unfold rollback
  rw [if_neg hgrid]
  exact traverse_returns sch conds grid.stoppingTimes hset hstep hcond _ _

end DriverFacts

section ScheduleFacts

variable {R : Type}

theorem mem_conditionEvents (t t' : R) (n : Nat) :
    ∀ i j, Event.condition i t ∈ conditionEvents t' n j → t = t' := by
  induction n with
  | zero => intro i j h; cases h
  | succ n ih =>
    intro i j h
    simp only [conditionEvents, List.mem_cons, Event.condition.injEq] at h
    rcases h with ⟨-, h⟩ | h
    · exact h
    · exact ih i (j + 1) h

theorem stepCalls_conditionEvents (d : Option R) (t : R) (es : List (Event R)) (n : Nat) :
    ∀ i, stepCalls d (conditionEvents t n i ++ es) = stepCalls d es := by
  induction n with
  | zero => intro i; rfl
  | succ n ih =>
    intro i
    rw [conditionEvents, List.cons_append, stepCalls]
    exact ih (i + 1)

variable [LinearOrderedRing R]

theorem mem_schedule_condition (stops : List R) (n i : Nat) (t : R) (path : List R) :
    ∀ d, Event.condition i t ∈ schedule stops n d path → t ∈ path.tail := by
  induction path with
  | nil => intro d h; simp [schedule] at h
  | cons t0 rest ih =>
    intro d h
    cases rest with
    | nil => simp [schedule] at h
    | cons t1 rest =>
      simp only [schedule, List.mem_append, List.mem_cons] at h
      simp only [List.tail_cons, List.mem_cons]
      rcases h with h | h | h | h
      · split at h
        · cases h
        · simp at h
      · cases h
      · split at h
        · exact Or.inl (mem_conditionEvents t t1 n i 0 h)
        · cases h
      · exact Or.inr (by simpa using ih _ h)

theorem schedule_split (stops : List R) (n : Nat) (tj s : R) (q : List R)
    (hstop : s ∈ stops) (p : List R) :
    ∀ d, (p ++ tj :: s :: q).Nodup →
      ∃ pre post, schedule stops n d (p ++ tj :: s :: q) =
          pre ++ Event.step tj :: (conditionEvents s n 0 ++ post) ∧
        (∀ i, Event.condition i s ∉ pre) ∧ (∀ i, Event.condition i s ∉ post) := by
  induction p with
  | nil =>
    intro d hnd
    refine ⟨if d = some |s - tj| then [] else [Event.setStep |s - tj|],
      schedule stops n (some |s - tj|) (s :: q), ?_, ?_, ?_⟩
    · simp only [List.nil_append, schedule, hstop, if_true]
    · intro i h
      split at h
      · cases h
      · simp at h
    · intro i h
      have h1 := mem_schedule_condition stops n i s (s :: q) _ h
      simp only [List.nil_append, List.nodup_cons, List.mem_cons, not_or] at hnd
      exact hnd.2.1 (by simpa using h1)
  | cons t0 p ih =>
    intro d hnd
    have hnd' : (p ++ tj :: s :: q).Nodup := by
      simp only [List.cons_append, List.nodup_cons] at hnd
      exact hnd.2
    obtain ⟨t1, r1, hr, hne⟩ : ∃ t1 r1, p ++ tj :: s :: q = t1 :: r1 ∧ t1 ≠ s := by
      cases p with
      | nil =>
        refine ⟨tj, s :: q, rfl, ?_⟩
        simp only [List.nil_append, List.nodup_cons, List.mem_cons, not_or] at hnd'
        exact hnd'.1.1
      | cons x p =>
        refine ⟨x, p ++ tj :: s :: q, rfl, ?_⟩
        simp only [List.cons_append, List.nodup_cons, List.mem_append, List.mem_cons,
          not_or] at hnd'
        exact hnd'.1.2.2.1
    obtain ⟨pre, post, hsch, hpre, hpost⟩ := ih (some |t1 - t0|) hnd'
    refine ⟨(if d = some |t1 - t0| then [] else [Event.setStep |t1 - t0|]) ++
      Event.step t0 :: ((if t1 ∈ stops then conditionEvents t1 n 0 else []) ++ pre),
      post, ?_, ?_, hpost⟩
    · rw [List.cons_append, hr, schedule, ← hr, hsch]
      simp only [List.append_assoc, List.cons_append]
    · intro i h
      simp only [List.mem_append, List.mem_cons] at h
      rcases h with h | h | h | h
      · split at h
        · cases h
        · simp at h
      · cases h
      · split at h
        · exact hne (mem_conditionEvents s t1 n i 0 h).symm
        · cases h
      · exact hpre i h

theorem stepCalls_schedule (stops : List R) (n : Nat) (path : List R) :
    ∀ d, stepCalls d (schedule stops n d path) =
      (subIntervals path).map (fun p => (some |p.2 - p.1|, p.1)) := by
  induction path with
  | nil => intro d; rfl
  | cons t0 rest ih =>
    intro d
    cases rest with
    | nil => rfl
    | cons t1 rest =>
      have key : ∀ es, stepCalls d ((if d = some |t1 - t0| then []
          else [Event.setStep |t1 - t0|]) ++ Event.step t0 :: es) =
          (some |t1 - t0|, t0) :: stepCalls (some |t1 - t0|) es := by
        intro es
        by_cases hd : d = some |t1 - t0|
        · simp only [hd, if_true, List.nil_append, stepCalls]
        · simp only [hd, if_false, List.singleton_append, stepCalls]
      rw [schedule, key, subIntervals, List.map_cons]
      congr 1
      split
      · rw [stepCalls_conditionEvents, ih]
      · rw [List.nil_append, ih]

theorem segment_in_grid (fromTime toTime : R) (times : List R) :
    ∃ l r, times = l ++ segment fromTime toTime times ++ r :=
  ⟨times.takeWhile (fun t => !between fromTime toTime t),
    (times.dropWhile (fun t => !between fromTime toTime t)).dropWhile
      (fun t => between fromTime toTime t), by
    unfold segment
    rw [List.append_assoc, List.takeWhile_append_dropWhile, List.takeWhile_append_dropWhile]⟩

theorem segment_nodup (fromTime toTime : R) (times : List R) (h : times.Nodup) :
    (segment fromTime toTime times).Nodup :=
  ((List.takeWhile_sublist _).trans (List.dropWhile_sublist _)).nodup h

end ScheduleFacts

section DriverClaims

variable {S Arr R ε : Type} [LinearOrderedRing R]

/-- C7 (stopping-time ordering of the stepping driver).  Let the points
traversed by a rollback over a time grid without repeated points (as a
strictly monotonic grid is) contain the sub-interval `[tj, s]`, with `s` a
designated stopping time, and let two step conditions be registered.  Then
in every rollback that is not aborted the record of calls reads
`pre ++ [step(tj), condition 0 at s, condition 1 at s] ++ post`, with no
condition call at `s` in `pre` or in `post`: each of the two conditions is
invoked exactly once at `s`, after the scheme step that reaches `s`, before
any later step, in registration order.  The rollback is not aborted when the
grid is non-empty and no scheme call and no condition fails. -/
theorem rollback_stopping_time_order (sch : SchemeOps S Arr R ε) (scheme : S) (state : Arr)
    (fromTime toTime : R) (grid : TimeGrid R) (c0 c1 : Arr → R → Except ε Arr)
    (p q : List R) (tj s : R)
    (hpath : segment fromTime toTime grid.times = p ++ tj :: s :: q)
    (hnodup : grid.times.Nodup)
    (hstop : s ∈ grid.stoppingTimes) :
    (∀ d, rollback sch scheme state fromTime toTime grid [c0, c1] = .ok d →
      ∃ pre post,
        d.trace = pre ++ [Event.step tj, Event.condition 0 s, Event.condition 1 s] ++ post ∧
        (∀ i, Event.condition i s ∉ pre) ∧ (∀ i, Event.condition i s ∉ post)) ∧
    (grid.times ≠ [] → (∀ h x, ∃ x', sch.setStep h x = .ok x') →
      (∀ a t x, ∃ r, sch.step a t x = .ok r) →
      (∀ a t, ∃ a', c0 a t = .ok a') → (∀ a t, ∃ a', c1 a t = .ok a') →
      ∃ d, rollback sch scheme state fromTime toTime grid [c0, c1] = .ok d) := by
  constructor
  · intro d hd
    have hnd : (p ++ tj :: s :: q).Nodup := by
      rw [← hpath]; exact segment_nodup fromTime toTime grid.times hnodup
    obtain ⟨pre, post, hsch, hpre, hpost⟩ :=
      schedule_split grid.stoppingTimes 2 tj s q hstop p none hnd
    refine ⟨pre, post, ?_, hpre, hpost⟩
    rw [rollback_trace sch scheme state fromTime toTime grid [c0, c1] d hd, hpath]
    simpa [conditionEvents] using hsch
  · intro hgrid hset hstep h0 h1
    refine rollback_returns sch scheme state fromTime toTime grid [c0, c1] hgrid hset hstep ?_
    intro c hc a t
    simp only [List.mem_cons, List.mem_singleton, List.not_mem_nil, or_false] at hc
    rcases hc with rfl | rfl
    · exact h0 a t
    · exact h1 a t

/-- Witness for C7: the explicit Euler scheme on `diag(-1, -2)` rolled back
from time 10 to time 0 over the grid `12, 10, 7, 6, 5, 1, 0, -1` with stopping
times 7 and 5 and two conditions; the second stopping time 5 is reached by
the step at 6. -/
theorem rollback_stopping_time_order_witness :
    ∃ d, rollback (ExplicitEuler.scheme DiagOp.ops)
        (ExplicitEuler.new DiagOp.ops ⟨[-1, -2], [0, 0], false⟩) [1, 1] 10 0
        ⟨[12, 10, 7, 6, 5, 1, 0, -1], [7, 5]⟩ [projectNonNegative, capAtTime] = .ok d ∧
      ∃ pre post,
        d.trace = pre ++ [Event.step 6, Event.condition 0 5, Event.condition 1 5] ++ post ∧
        (∀ i, Event.condition i 5 ∉ pre) ∧ (∀ i, Event.condition i 5 ∉ post) :=
  ⟨{ scheme := ⟨⟨[-1, -2], [0, 0], false⟩, ⟨[1, 1], [0, 0], false⟩,
        ⟨[2, 3], [0, 0], false⟩, 1⟩,
     state := [50, 135], dt := some 1,
     trace := [Event.setStep 3, Event.step 10, Event.condition 0 7, Event.condition 1 7,
       Event.setStep 1, Event.step 7, Event.step 6, Event.condition 0 5,
       Event.condition 1 5, Event.setStep 4, Event.step 5, Event.setStep 1, Event.step 1] },
   by rfl,
   (rollback_stopping_time_order (ExplicitEuler.scheme DiagOp.ops)
      (ExplicitEuler.new DiagOp.ops ⟨[-1, -2], [0, 0], false⟩) [1, 1] 10 0
      ⟨[12, 10, 7, 6, 5, 1, 0, -1], [7, 5]⟩ projectNonNegative capAtTime
      [10, 7] [1, 0] 6 5 (by rfl) (by decide) (by decide)).1 _ (by rfl)⟩

/-- C8 (irregular time grids in the stepping driver).  In every rollback that
is not aborted, the `step` calls on the scheme are, in order, one for each
sub-interval `[t_k, t_{k+1}]` of the traversed points, called with `t_k`
while the step size last handed to the scheme through `setStep` is the size
`|t_{k+1} - t_k|` of that sub-interval, whatever the spacing of the grid.
The traversed points are a stretch of consecutive points of the grid, and the
rollback is not aborted when the grid is non-empty and no scheme call and no
condition fails. -/
theorem rollback_step_sizes (sch : SchemeOps S Arr R ε) (scheme : S) (state : Arr)
    (fromTime toTime : R) (grid : TimeGrid R) (conds : List (Arr → R → Except ε Arr)) :
    (∀ d, rollback sch scheme state fromTime toTime grid conds = .ok d →
      stepCalls none d.trace =
        (subIntervals (segment fromTime toTime grid.times)).map
          (fun p => (some |p.2 - p.1|, p.1))) ∧
    (∃ l r, grid.times = l ++ segment fromTime toTime grid.times ++ r) ∧
    (grid.times ≠ [] → (∀ h x, ∃ x', sch.setStep h x = .ok x') →
      (∀ a t x, ∃ r, sch.step a t x = .ok r) →
      (∀ c ∈ conds, ∀ a t, ∃ a', c a t = .ok a') →
      ∃ d, rollback sch scheme state fromTime toTime grid conds = .ok d) := by
  refine ⟨?_, segment_in_grid fromTime toTime grid.times, ?_⟩
  · intro d hd
    rw [rollback_trace sch scheme state fromTime toTime grid conds d hd]
    exact stepCalls_schedule grid.stoppingTimes conds.length _ none
  · intro hgrid hset hstep hcond
    exact rollback_returns sch scheme state fromTime toTime grid conds hgrid hset hstep hcond

/-- Witness for C8: on the non-uniform grid `12, 10, 7, 6, 5, 1, 0, -1` rolled
back from 10 to 0, the steps at 10, 7, 6, 5, 1 run with the step sizes
3, 1, 1, 4, 1. -/
theorem rollback_step_sizes_witness :
    ∃ d, rollback (ExplicitEuler.scheme DiagOp.ops)
        (ExplicitEuler.new DiagOp.ops ⟨[-1, -2], [0, 0], false⟩) [1, 1] 10 0
        ⟨[12, 10, 7, 6, 5, 1, 0, -1], [7, 5]⟩ [projectNonNegative, capAtTime] = .ok d ∧
      stepCalls none d.trace =
        [(some 3, 10), (some 1, 7), (some 1, 6), (some 4, 5), (some 1, 1)] :=
  ⟨{ scheme := ⟨⟨[-1, -2], [0, 0], false⟩, ⟨[1, 1], [0, 0], false⟩,
        ⟨[2, 3], [0, 0], false⟩, 1⟩,
     state := [50, 135], dt := some 1,
     trace := [Event.setStep 3, Event.step 10, Event.condition 0 7, Event.condition 1 7,
       Event.setStep 1, Event.step 7, Event.step 6, Event.condition 0 5,
       Event.condition 1 5, Event.setStep 4, Event.step 5, Event.setStep 1, Event.step 1] },
   by rfl,
   ((rollback_step_sizes (ExplicitEuler.scheme DiagOp.ops)
      (ExplicitEuler.new DiagOp.ops ⟨[-1, -2], [0, 0], false⟩) [1, 1] 10 0
      ⟨[12, 10, 7, 6, 5, 1, 0, -1], [7, 5]⟩ [projectNonNegative, capAtTime]).1 _
      (by rfl)).trans (by decide)⟩

end DriverClaims

namespace ExplicitEuler

variable {Op Arr R ε : Type}

/-! ### Operator sizes inside the scheme -/

theorem size_frame_stepUpdate (ops : OperatorOps Op Arr R ε)
    (hsetTime : ∀ t o o', ops.setTime t o = .ok o' → ops.size o' = ops.size o)
    (t : R) (s s' : ExplicitEuler Op R) (h : stepUpdate ops t s = .ok s') :
    s'.I_ = s.I_ ∧ ops.size s'.L_ = ops.size s.L_ := by
  rcases (stepUpdate_eq_ok ops t s s').1 h with ⟨-, rfl⟩ | ⟨-, L1, e, hL1, -, rfl⟩
  · exact ⟨rfl, rfl⟩
  · exact ⟨rfl, hsetTime t _ _ hL1⟩

theorem size_runCalls (ops : OperatorOps Op Arr R ε)
    (hsetTime : ∀ t o o', ops.setTime t o = .ok o' → ops.size o' = ops.size o)
    (calls : List (Call Arr R)) :
    ∀ s s' : ExplicitEuler Op R, ops.size s.I_ = ops.size s.L_ →
      runCalls ops s calls = .ok s' → ops.size s'.I_ = ops.size s'.L_ := by
  induction calls with
  | nil =>
    intro s s' hs h
    simp only [runCalls, except_pure_eq_ok] at h
    rw [← h]; exact hs
  | cons c cs ih =>
    intro s s' hs h
    cases c with
    | setStep dt =>
      simp only [runCalls, except_bind_eq_ok] at h
      obtain ⟨s1, h1, h2⟩ := h
      obtain ⟨e, -, rfl⟩ := (setStep_eq_ok ops dt s s1).1 h1
      exact ih { L_ := s.L_, I_ := s.I_, explicitPart_ := e, dt_ := dt } s' hs h2
    | step a t =>
      simp only [runCalls, except_bind_eq_ok] at h
      obtain ⟨⟨s1, a1⟩, h1, h2⟩ := h
      obtain ⟨hI, hL⟩ := size_frame_stepUpdate ops hsetTime t s s1
        ((step_eq_ok ops a a1 t s s1).1 h1).1
      exact ih s1 s' (by rw [hI, hL]; exact hs) h2

/-- C12 (operator sizes always match inside the scheme).  Let `identity(n)`
have size `n`, let the scalar product keep the size of the operator, and let
`setTime` keep the size.  In every scheme state reached from `ExplicitEuler(L)`
by `setStep` and `step` calls, `I_.size() = L_.size()`; the two operands of
the subtraction `I_ - dt*L_` of any further `setStep(dt)`, and of the
subtraction `I_ - dt_*L_` of any further `step` at any time `t`, have equal
sizes; so if the subtraction returns on operands of equal sizes, it returns
in both places. -/
theorem sizes_match [Zero R] (ops : OperatorOps Op Arr R ε) (L : Op)
    (calls : List (Call Arr R)) (s : ExplicitEuler Op R)
    (hid : ∀ n, ops.size (ops.identity n) = n)
    (hsmul : ∀ c o m, ops.smul c o = .ok m → ops.size m = ops.size o)
    (hsetTime : ∀ t o o', ops.setTime t o = .ok o' → ops.size o' = ops.size o)
    (hrun : runCalls ops (new ops L) calls = .ok s) :
    ops.size s.I_ = ops.size s.L_ ∧
    (∀ dt m, ops.smul dt s.L_ = .ok m → ops.size s.I_ = ops.size m) ∧
    (∀ t L1 m, ops.setTime t s.L_ = .ok L1 → ops.smul s.dt_ L1 = .ok m →
      ops.size s.I_ = ops.size m) ∧
    ((∀ x y, ops.size x = ops.size y → ∃ e, ops.sub x y = .ok e) →
      (∀ dt m, ops.smul dt s.L_ = .ok m → ∃ e, ops.sub s.I_ m = .ok e) ∧
      (∀ t L1 m, ops.setTime t s.L_ = .ok L1 → ops.smul s.dt_ L1 = .ok m →
        ∃ e, ops.sub s.I_ m = .ok e)) := by
  have hsize : ops.size s.I_ = ops.size s.L_ :=
    size_runCalls ops hsetTime calls (new ops L) s (hid _) hrun
  have h1 : ∀ dt m, ops.smul dt s.L_ = .ok m → ops.size s.I_ = ops.size m := by
    intro dt m hm
    rw [hsize, hsmul dt _ m hm]
  have h2 : ∀ t L1 m, ops.setTime t s.L_ = .ok L1 → ops.smul s.dt_ L1 = .ok m →
      ops.size s.I_ = ops.size m := by
    intro t L1 m hL1 hm
    rw [hsize, hsmul _ _ m hm, hsetTime t _ _ hL1]
  exact ⟨hsize, h1, h2, fun hsub =>
    ⟨fun dt m hm => hsub _ _ (h1 dt m hm), fun t L1 m hL1 hm => hsub _ _ (h2 t L1 m hL1 hm)⟩⟩

end ExplicitEuler

theorem DiagOp.size_smul (c : Int) (o m : DiagOp) (h : DiagOp.ops.smul c o = .ok m) :
    DiagOp.ops.size m = DiagOp.ops.size o := by
  simp only [DiagOp.ops, pure, Except.pure, Except.ok.injEq] at h
  subst h
  simp [DiagOp.ops, DiagOp.smul]

/-- Witness for C12: after `setStep(1)`, a step at time 2 and `setStep(3)` on
the time-dependent synthetic operator of size 2, `I_` and `L_` both have
size 2. -/
theorem sizes_match_witness :
    ExplicitEuler.runCalls DiagOp.ops (ExplicitEuler.new DiagOp.ops ⟨[0, 0], [1, 2], true⟩)
        [ExplicitEuler.Call.setStep 1, ExplicitEuler.Call.step [1, 1] 2,
          ExplicitEuler.Call.setStep 3] =
      .ok ⟨⟨[2, 4], [1, 2], true⟩, ⟨[1, 1], [0, 0], false⟩,
        ⟨[-5, -11], [-3, -6], true⟩, 3⟩ ∧
    DiagOp.ops.size (⟨[1, 1], [0, 0], false⟩ : DiagOp) =
      DiagOp.ops.size (⟨[2, 4], [1, 2], true⟩ : DiagOp) :=
  ⟨by rfl, (ExplicitEuler.sizes_match DiagOp.ops ⟨[0, 0], [1, 2], true⟩
    [ExplicitEuler.Call.setStep 1, ExplicitEuler.Call.step [1, 1] 2,
      ExplicitEuler.Call.setStep 3]
    ⟨⟨[2, 4], [1, 2], true⟩, ⟨[1, 1], [0, 0], false⟩, ⟨[-5, -11], [-3, -6], true⟩, 3⟩
    DiagOp.size_identity DiagOp.size_smul
    (by
      intro t o o' h
      simp only [DiagOp.ops, pure, Except.pure, Except.ok.injEq] at h
      subst h
      simp only [DiagOp.ops, DiagOp.setTime]
      split <;> simp)
    (by rfl)).1⟩

/-! ### Zero step size and linearity -/

theorem vsub_vsmul_zero {R : Type} [Ring R] (a : List R) :
    ∀ La : List R, La.length = a.length → vsub a (vsmul 0 La) = a := by
  induction a with
  | nil => intro La _; simp [vsub]
  | cons x a ih =>
    intro La h
    cases La with
    | nil => cases h
    | cons y La =>
      have h1 := ih La (by simpa using h)
      simp only [vsub, vsmul, zero_mul] at h1
      simp only [vsub, vsmul, List.map_cons, List.zipWith_cons_cons, h1, zero_mul, sub_zero]

theorem vadd_vsmul_zero {R : Type} [Semiring R] (v : List R) :
    vadd (vsmul 0 v) (vsmul 0 v) = List.replicate v.length 0 := by
  induction v with
  | nil => rfl
  | cons x v ih =>
    simp only [vadd, vsmul, zero_mul] at ih
    simp only [vadd, vsmul, List.map_cons, List.zipWith_cons_cons, ih, zero_mul, add_zero,
      List.length_cons, List.replicate_succ]

namespace ExplicitEuler

variable {Op Arr R ε : Type}

theorem step_zero_dt_recomputed [Ring R] (ops : OperatorOps Op (List R) R ε)
    (t : R) (a La : List R) (s : ExplicitEuler Op R) (L1 m1 e1 : Op)
    (hid : IdentityLaw ops) (hex : ExplicitLaw ops)
    (hdt : s.dt_ = 0)
    (hI : s.I_ = ops.identity a.length)
    (htd : ops.isTimeDependent s.L_ = true)
    (hL1 : ops.setTime t s.L_ = .ok L1)
    (hm1 : ops.smul 0 L1 = .ok m1)
    (he1 : ops.sub s.I_ m1 = .ok e1)
    (hLa : ops.applyTo L1 a = .ok La)
    (hLen : La.length = a.length) :
    step ops a t s = .ok ({ L_ := L1, I_ := s.I_, explicitPart_ := e1, dt_ := s.dt_ }, a) := by
  rw [step_eq_ok]
  refine ⟨(stepUpdate_eq_ok ops t s _).2 (Or.inr ⟨htd, L1, e1, hL1, ?_, rfl⟩), ?_⟩
  · exact (explicitExpr_eq_ok ops _ e1).2 ⟨m1, by rw [hdt]; exact hm1, he1⟩
  · have h := hex s.I_ L1 m1 e1 0 a a La hm1 he1 (by rw [hI]; exact hid _ a rfl) hLa
    rw [vsub_vsmul_zero a La hLen] at h
    exact h

/-- C13 (zero step size is the identity step).  Let the operator interface
obey the two contract laws and let `a` have length `L.size()`.
(i) After `setStep(0)` on the scheme built from `L`, `step(a, t)` returns `a`
unchanged: for a time-constant `L` when `L.applyTo(a)` returns a vector of
the length of `a`, and for a time-dependent `L` when `setTime(t)`, the
product, the difference and the application of `L` at time `t` return.
(ii) For a time-dependent `L`, `step(a, t)` right after construction, with no
`setStep`, returns `a` unchanged as well, under the same conditions. -/
theorem step_zero_dt [Ring R] (ops : OperatorOps Op (List R) R ε) (L : Op) (t : R)
    (a : List R)
    (hid : IdentityLaw ops) (hex : ExplicitLaw ops)
    (hlen : a.length = ops.size L) :
    (∀ s La, ops.isTimeDependent L = false → setStep ops 0 (new ops L) = .ok s →
      ops.applyTo L a = .ok La → La.length = a.length → step ops a t s = .ok (s, a)) ∧
    (∀ s L1 m1 e1 La, ops.isTimeDependent L = true → setStep ops 0 (new ops L) = .ok s →
      ops.setTime t L = .ok L1 → ops.smul 0 L1 = .ok m1 →
      ops.sub (ops.identity (ops.size L)) m1 = .ok e1 →
      ops.applyTo L1 a = .ok La → La.length = a.length →
      ∃ s', step ops a t s = .ok (s', a)) ∧
    (∀ L1 m1 e1 La, ops.isTimeDependent L = true →
      ops.setTime t L = .ok L1 → ops.smul 0 L1 = .ok m1 →
      ops.sub (ops.identity (ops.size L)) m1 = .ok e1 →
      ops.applyTo L1 a = .ok La → La.length = a.length →
      ∃ s', step ops a t (new ops L) = .ok (s', a)) := by
  refine ⟨?_, ?_, ?_⟩
  · intro s La hti hset hLa hLen
    obtain ⟨e, he, rfl⟩ := (setStep_eq_ok ops 0 _ s).1 hset
    obtain ⟨m, hm, hs⟩ := (explicitExpr_eq_ok ops _ e).1 he
    rw [step_eq_ok]
    refine ⟨(stepUpdate_eq_ok ops t _ _).2 (Or.inl ⟨hti, rfl⟩), ?_⟩
    have h := hex _ L m e 0 a a La hm hs (hid _ a hlen) hLa
    rw [vsub_vsmul_zero a La hLen] at h
    exact h
  · intro s L1 m1 e1 La htd hset hL1 hm1 he1 hLa hLen
    obtain ⟨e, -, rfl⟩ := (setStep_eq_ok ops 0 _ s).1 hset
    exact ⟨_, step_zero_dt_recomputed ops t a La _ L1 m1 e1 hid hex rfl
      (by rw [hlen]; rfl) htd hL1 hm1 he1 hLa hLen⟩
  · intro L1 m1 e1 La htd hL1 hm1 he1 hLa hLen
    exact ⟨_, step_zero_dt_recomputed ops t a La (new ops L) L1 m1 e1 hid hex rfl
      (by rw [hlen]; rfl) htd hL1 hm1 he1 hLa hLen⟩

/-- Witness for C13: on the time-dependent synthetic operator whose diagonal
at time `t` is `t * (1, 2)`, a step at time 5 right after construction
returns `[3, 4]` unchanged; on the time-constant `diag(2, 5)`, a step after
`setStep(0)` returns `[3, 4]` unchanged. -/
theorem step_zero_dt_witness :
    (∃ s', step DiagOp.ops [3, 4] 5 (new DiagOp.ops ⟨[0, 0], [1, 2], true⟩) =
      .ok (s', [3, 4])) ∧
    step DiagOp.ops [3, 4] 5
        ⟨⟨[2, 5], [0, 0], false⟩, ⟨[1, 1], [0, 0], false⟩, ⟨[1, 1], [0, 0], false⟩, 0⟩ =
      .ok (⟨⟨[2, 5], [0, 0], false⟩, ⟨[1, 1], [0, 0], false⟩, ⟨[1, 1], [0, 0], false⟩, 0⟩,
        [3, 4]) :=
  ⟨(step_zero_dt DiagOp.ops ⟨[0, 0], [1, 2], true⟩ 5 [3, 4]
      DiagOp.identityLaw DiagOp.explicitLaw (by rfl)).2.2
      ⟨[5, 10], [1, 2], true⟩ ⟨[0, 0], [0, 0], true⟩ ⟨[1, 1], [0, 0], true⟩ [15, 40]
      (by rfl) (by rfl) (by rfl) (by rfl) (by rfl) (by rfl),
   (step_zero_dt DiagOp.ops ⟨[2, 5], [0, 0], false⟩ 5 [3, 4]
      DiagOp.identityLaw DiagOp.explicitLaw (by rfl)).1
      ⟨⟨[2, 5], [0, 0], false⟩, ⟨[1, 1], [0, 0], false⟩, ⟨[1, 1], [0, 0], false⟩, 0⟩
      [6, 20] (by rfl) (by rfl) (by rfl) (by rfl)⟩

end ExplicitEuler

theorem zipWith_linear (c a b : List Int) (x y : Int) :
    List.zipWith (fun c v => c * v) c (vadd (vsmul x a) (vsmul y b)) =
      vadd (vsmul x (List.zipWith (fun c v => c * v) c a))
        (vsmul y (List.zipWith (fun c v => c * v) c b)) := by
  induction c generalizing a b with
  | nil => simp [vadd, vsmul]
  | cons k c ih =>
    cases a with
    | nil => simp [vadd, vsmul]
    | cons u a =>
      cases b with
      | nil => simp [vadd, vsmul]
      | cons w b =>
        have h := ih a b
        simp only [vadd, vsmul] at h
        simp only [vadd, vsmul, List.map_cons, List.zipWith_cons_cons, h, List.cons.injEq,
          and_true]
        ring

theorem DiagOp.linearLaw : LinearLaw DiagOp.ops := by
  intro o x y a b ra rb ha hb
  simp only [DiagOp.ops, DiagOp.applyTo] at ha hb ⊢
  split at ha
  · split at hb
    · simp only [pure, Except.pure, Except.ok.injEq] at ha hb
      subst ha hb
      rename_i h1 h2
      simp only [vadd, vsmul, List.length_zipWith, List.length_map, h1, h2, min_self, if_true,
        pure, Except.pure]
      have h := zipWith_linear o.coeff a b x y
      simp only [vadd, vsmul] at h
      rw [h]
    · cases hb
  · cases ha

namespace ExplicitEuler

variable {Op Arr R ε : Type}

/-- C14 (a step is linear in the state).  Let `applyTo` be linear.  For a
fixed scheme state and time `t`, if `step` returns `ra` on `a` and `rb` on
`b`, it leaves the scheme in the same state both times and returns
`x*ra + y*rb` on `x*a + y*b`, for all scalars `x` and `y`.  In particular, if
`step` returns on some vector `a`, it maps the zero vector of that length to
a zero vector. -/
theorem step_linear [Semiring R] (ops : OperatorOps Op (List R) R ε) (t : R)
    (s sa sb : ExplicitEuler Op R) (a b ra rb : List R)
    (hlin : LinearLaw ops)
    (ha : step ops a t s = .ok (sa, ra))
    (hb : step ops b t s = .ok (sb, rb)) :
    sa = sb ∧
    (∀ x y, step ops (vadd (vsmul x a) (vsmul y b)) t s =
      .ok (sa, vadd (vsmul x ra) (vsmul y rb))) ∧
    step ops (List.replicate a.length 0) t s = .ok (sa, List.replicate ra.length 0) := by
  obtain ⟨hua, haa⟩ := (step_eq_ok ops a ra t s sa).1 ha
  obtain ⟨hub, hab⟩ := (step_eq_ok ops b rb t s sb).1 hb
  have hs : sa = sb := by
    rw [hua] at hub
    exact Except.ok.inj hub
  subst hs
  refine ⟨rfl, fun x y => ?_, ?_⟩
  · exact (step_eq_ok ops _ _ t s sa).2 ⟨hua, hlin _ x y a b ra rb haa hab⟩
  · have h := hlin _ 0 0 a a ra ra haa haa
    rw [vadd_vsmul_zero, vadd_vsmul_zero] at h
    exact (step_eq_ok ops _ _ t s sa).2 ⟨hua, h⟩

/-- Witness for C14: on the scheme holding `diag(2, 5)` with `dt = 3`, the
step maps `[1, 1]` to `[-5, -14]` and `[2, 0]` to `[-10, 0]`, hence
`2*[1, 1] + 3*[2, 0]` to `2*[-5, -14] + 3*[-10, 0]`, and `[0, 0]` to
`[0, 0]`. -/
theorem step_linear_witness :
    (∀ x y : Int, step DiagOp.ops (vadd (vsmul x [1, 1]) (vsmul y [2, 0])) 7
        ⟨⟨[2, 5], [0, 0], false⟩, ⟨[1, 1], [0, 0], false⟩, ⟨[-5, -14], [0, 0], false⟩, 3⟩ =
      .ok (⟨⟨[2, 5], [0, 0], false⟩, ⟨[1, 1], [0, 0], false⟩,
          ⟨[-5, -14], [0, 0], false⟩, 3⟩,
        vadd (vsmul x [-5, -14]) (vsmul y [-10, 0]))) ∧
    step DiagOp.ops (List.replicate ([1, 1] : List Int).length 0) 7
        ⟨⟨[2, 5], [0, 0], false⟩, ⟨[1, 1], [0, 0], false⟩, ⟨[-5, -14], [0, 0], false⟩, 3⟩ =
      .ok (⟨⟨[2, 5], [0, 0], false⟩, ⟨[1, 1], [0, 0], false⟩,
          ⟨[-5, -14], [0, 0], false⟩, 3⟩,
        List.replicate ([-5, -14] : List Int).length 0) :=
  (step_linear DiagOp.ops 7
    ⟨⟨[2, 5], [0, 0], false⟩, ⟨[1, 1], [0, 0], false⟩, ⟨[-5, -14], [0, 0], false⟩, 3⟩
    ⟨⟨[2, 5], [0, 0], false⟩, ⟨[1, 1], [0, 0], false⟩, ⟨[-5, -14], [0, 0], false⟩, 3⟩
    ⟨⟨[2, 5], [0, 0], false⟩, ⟨[1, 1], [0, 0], false⟩, ⟨[-5, -14], [0, 0], false⟩, 3⟩
    [1, 1] [2, 0] [-5, -14] [-10, 0] DiagOp.linearLaw (by rfl) (by rfl)).2

end ExplicitEuler

end FiniteDifferences

namespace CalibrationHelper

variable {Q Y B P O R N ε : Type}

/-- C11 (market value of a calibration helper).  For every helper, if the
volatility quote currently has the value `v` and `blackPrice(v)` returns `p`,
then `update()` returns, `marketValue()` right after it returns `p`, no other
data member has changed, and every registered observer has been notified, in
registration order, with the helper already holding `p`; `marketValue()`
leaves every helper as it found it. -/
theorem update_marketValue (env : Env Q Y B P O R N ε) (h : CalibrationHelper Q Y B P O R)
    (v p : R)
    (hv : env.value h.volatility_ = .ok v)
    (hp : env.blackPrice h v = .ok p) :
    ∃ h' log, update env h = .ok (h', log) ∧
      (marketValue h').1 = p ∧
      h' = { h with marketValue_ := p } ∧
      log = h.observers_.map (fun o => env.notify o h') ∧
      ∀ g : CalibrationHelper Q Y B P O R, (marketValue g).2 = g := by
  refine ⟨{ h with marketValue_ := p }, notifyObservers env { h with marketValue_ := p },
    ?_, rfl, rfl, rfl, fun g => rfl⟩
  simp only [update, FiniteDifferences.except_bind_eq_ok,
    FiniteDifferences.except_pure_eq_ok]
  exact ⟨v, hv, p, hp, rfl⟩

/-- Witness for C11: a helper with a stale market value 0, a quote at 20 and
the observers 4 and 9; after `update()` the market value is `2 * 20 + 1`, and
both observers saw 41. -/
theorem update_marketValue_witness :
    ∃ h' log, update sampleEnv ⟨0, 20, (), (), none, false, [4, 9]⟩ = .ok (h', log) ∧
      (marketValue h').1 = 41 ∧
      h' = ⟨41, 20, (), (), none, false, [4, 9]⟩ ∧
      log = [(4, 41), (9, 41)] ∧
      ∀ g : CalibrationHelper Int Unit Unit Unit Nat Int, (marketValue g).2 = g := by
  obtain ⟨h', log, hu, hm, hh, hl, hf⟩ :=
    update_marketValue sampleEnv ⟨0, 20, (), (), none, false, [4, 9]⟩ 20 41 (by rfl) (by rfl)
  subst hh
  exact ⟨_, log, hu, hm, rfl, by rw [hl]; rfl, hf⟩

end CalibrationHelper

end QuantLib
